import Mathlib

/-!
Verification of the Tasklytics core: the snapshot-based undo/redo/commit
history engine (`src/main.jsx`, hook `useHistory`) and the rule-based
automation engine (`src/flows/FlowEngine.js`).

The JavaScript sources are shallowly embedded: JS values become the
inductive `JValue`, fallible JS code returns `Except String`, the
module-level mutable execution log is threaded explicitly, and React
`useState` state becomes an explicit `HistoryState` record.  A separate
heap model (`Heap`, `HVal`) embeds object identity and in-place mutation
for the snapshot-isolation claims.
-/

set_option maxHeartbeats 4000000
set_option maxRecDepth 100000

namespace Tasklytics

/-- A JavaScript runtime value as used by the flow engine: `undefined`,
`null`, booleans, numbers (modelled as integers; no claim depends on
float behaviour), strings and plain objects. -/
inductive JValue where
  | undefined
  | null
  | bool (b : Bool)
  | num  (n : Int)
  | str  (s : String)
  | obj  (fields : List (String × JValue))

/-- Test for the JS check `v === undefined || v === null`. -/
def isNullish : JValue → Bool
  | .undefined => true
  | .null => true
  | _ => false

/-- Test for the JS check `v !== undefined` (negated). -/
def isUndefined : JValue → Bool
  | .undefined => true
  | _ => false

/-- JS truthiness: `undefined`, `null`, `false`, `0` and the empty string
are falsy; objects are always truthy. -/
def truthy : JValue → Bool
  | .undefined => false
  | .null => false
  | .bool b => b
  | .num n => n != 0
  | .str s => s != ""
  | .obj _ => true

/-- JS `String(v)` coercion (objects collapse to "[object Object]"). -/
def jsToString : JValue → String
  | .undefined => "undefined"
  | .null => "null"
  | .bool b => if b then "true" else "false"
  | .num n => toString n
  | .str s => s
  | .obj _ => "[object Object]"

/-- JS strict equality `===` on the modelled values.  Two distinct object
literals compare by reference in JS; condition values and resolved values
never alias in the engine, so object-object comparison is `false`. -/
def strictEq : JValue → JValue → Bool
  | .undefined, .undefined => true
  | .null, .null => true
  | .bool a, .bool b => a == b
  | .num a, .num b => a == b
  | .str a, .str b => a == b
  | _, _ => false

/-- JS `Number(v)` coercion; `none` stands for `NaN` (all comparisons
against `NaN` are false). -/
def toNumber : JValue → Option Int
  | .undefined => none
  | .null => some 0
  | .bool b => some (if b then 1 else 0)
  | .num n => some n
  | .str s => if s = "" then some 0 else s.toInt?
  | .obj _ => none

/-- Substring containment, the semantics of JS `String.prototype.includes`
after both sides are stringified. -/
def strContains (s sub : String) : Bool :=
  (List.range (s.length + 1)).any
    (fun i => (s.toList.drop i).take sub.length == sub.toList)

/-- JS property read `v[k]` on a value already known not to be
`undefined`/`null`: objects look the key up (later duplicate keys win, as
in JS object literals), primitives have no own properties in the paths the
flows use, so the read yields `undefined`. -/
def getOwn : JValue → String → JValue
  | .obj fs, k => (((fs.filter (fun kv => kv.1 == k)).getLast?).map (·.2)).getD .undefined
  | _, _ => .undefined

/-- JS property read `v[k]` as an effectful operation: reading a property
of `undefined` or `null` throws a `TypeError`. -/
def getMember : JValue → String → Except String JValue
  | .undefined, k => .error ("Cannot read properties of undefined (reading " ++ k ++ ")")
  | .null, k => .error ("Cannot read properties of null (reading " ++ k ++ ")")
  | v, k => .ok (getOwn v k)

/-- The loop body of `getValueFromPath`: for each path part, return
`undefined` if the current value is `undefined`/`null`, otherwise read the
property and continue. -/
def pathWalk : JValue → List String → Except String JValue
  | cur, [] => .ok cur
  | cur, p :: rest =>
    if isNullish cur then .ok JValue.undefined
    else
      match getMember cur p with
      | .error e => .error e
      | .ok v => pathWalk v rest

/-- JS `path.split('.')` on a nonempty path: every maximal (possibly
empty) run between dots becomes one part. -/
def splitDotAux : List Char → List Char → List String
  | [], acc => [String.mk acc.reverse]
  | c :: rest, acc =>
    if c = '.' then String.mk acc.reverse :: splitDotAux rest []
    else splitDotAux rest (c :: acc)

/-- JS `s.split('.')`. -/
def jsSplitDot (s : String) : List String := splitDotAux s.toList []

/-- Embedding of `getValueFromPath(obj, path)` (FlowEngine.js lines
11-20): guard falsy object or empty path, split on dots, walk. -/
def getValueFromPath (obj : JValue) (path : String) : Except String JValue :=
  if !truthy obj || path = "" then .ok .undefined
  else pathWalk obj (jsSplitDot path)

/-- The resolution shared by condition evaluation and interpolation:
`getValueFromPath(eventPayload, path) || getValueFromPath(snapshot, path)`.
JS `||` yields the first operand when it is truthy, otherwise the second;
so a falsy payload value falls through to the snapshot context. -/
def resolveField (eventPayload snapshotCtx : JValue) (path : String) :
    Except String JValue :=
  match getValueFromPath eventPayload path with
  | .error e => .error e
  | .ok a => if truthy a then .ok a else getValueFromPath snapshotCtx path

theorem length_dropWhile_le (p : Char → Bool) (l : List Char) :
    (l.dropWhile p).length ≤ l.length := by
  induction l with
  | nil => simp [List.dropWhile]
  | cons c cs ih =>
    by_cases h : p c = true
    · simp [List.dropWhile, h]; omega
    · simp [List.dropWhile, h]

/-- After the two opening braces, the regex `([^\x7d]+)` followed by the
two closing braces either matches — yielding the token and the remainder
after the closing braces — or fails. -/
def splitToken (cs2 : List Char) : Option (List Char × List Char) :=
  match cs2.dropWhile (fun ch => ch ≠ '}') with
  | '}' :: '}' :: rest2 =>
    if (cs2.takeWhile (fun ch => ch ≠ '}')).isEmpty then none
    else some (cs2.takeWhile (fun ch => ch ≠ '}'), rest2)
  | _ => none

theorem splitToken_shrinks (cs2 tok rest2 : List Char)
    (h : splitToken cs2 = some (tok, rest2)) : rest2.length + 2 ≤ cs2.length := by
  have h1 := length_dropWhile_le (fun ch => decide (ch ≠ '}')) cs2
  unfold splitToken at h
  split at h
  next rest heq =>
    rw [heq] at h1
    simp only [List.length_cons] at h1
    split at h
    · exact absurd h (by simp)
    · have h2 : rest = rest2 := congrArg Prod.snd (Option.some.inj h)
      subst h2
      omega
  next heq => exact absurd h (by simp)

/-- Scanner for the regex replace
`str.replace(/\x7b\x7b([^\x7d]+)\x7d\x7d/g, cb)` of `interpolateVariables`:
a maximal token (two opening braces, a nonempty run of non-closing-brace
characters, two closing braces) is replaced by the stringified resolved
value when that value is not `undefined`, and left verbatim otherwise;
outside tokens the scan advances one character at a time, exactly like the
global regex. -/
def interpGo (eventPayload snapshotCtx : JValue) : List Char → Except String (List Char)
  | [] => pure []
  | c :: cs =>
    if c = '{' then
      match cs with
      | [] => pure [c]
      | c2 :: cs2 =>
        if c2 = '{' then
          match hs : splitToken cs2 with
          | some (tok, rest2) =>
            match resolveField eventPayload snapshotCtx (String.mk tok) with
            | .error e => .error e
            | .ok v =>
              let rep := if isUndefined v
                then '{' :: '{' :: (tok ++ ['}', '}'])
                else (jsToString v).toList
              match interpGo eventPayload snapshotCtx rest2 with
              | .error e => .error e
              | .ok tail => .ok (rep ++ tail)
          | none =>
            match interpGo eventPayload snapshotCtx (c2 :: cs2) with
            | .error e => .error e
            | .ok tail => .ok (c :: tail)
        else
          match interpGo eventPayload snapshotCtx (c2 :: cs2) with
          | .error e => .error e
          | .ok tail => .ok (c :: tail)
    else
      match interpGo eventPayload snapshotCtx cs with
      | .error e => .error e
      | .ok tail => .ok (c :: tail)
termination_by cs => cs.length
decreasing_by
  all_goals simp_wf
  all_goals try omega
  have h1 := splitToken_shrinks cs2 tok rest2 hs
  omega

/-- Embedding of `interpolateVariables(str, eventPayload, context)`
(FlowEngine.js lines 26-34): non-strings are returned unchanged; strings
have every interpolation token replaced. -/
def interpolateVariables (str : JValue) (eventPayload snapshotCtx : JValue) :
    Except String JValue :=
  match str with
  | .str s =>
    match interpGo eventPayload snapshotCtx s.toList with
    | .error e => .error e
    | .ok out => .ok (.str (String.mk out))
  | v => .ok v

/-- A flow condition `.field`, `.operator`, `.value`. -/
structure Condition where
  field : String
  operator : String
  value : JValue

/-- Embedding of one arm of the `conditions.every` callback of
`evaluateConditions` (FlowEngine.js lines 42-65). -/
def evalCondition (condition : Condition) (eventPayload snapshotCtx : JValue) :
    Except String Bool :=
  match resolveField eventPayload snapshotCtx condition.field with
  | .error e => .error e
  | .ok actualValue =>
  match condition.operator with
  | "equals" => pure (strictEq actualValue condition.value)
  | "not_equals" => pure (!strictEq actualValue condition.value)
  | "contains" => pure (strContains (jsToString actualValue) (jsToString condition.value))
  | "greater_than" =>
    pure (match toNumber actualValue, toNumber condition.value with
      | some a, some b => a > b
      | _, _ => false)
  | "less_than" =>
    pure (match toNumber actualValue, toNumber condition.value with
      | some a, some b => a < b
      | _, _ => false)
  | "exists" => pure (!isNullish actualValue)
  | "not_exists" => pure (isNullish actualValue)
  | _ => pure false

/-- The short-circuiting `conditions.every(...)` loop. -/
def evalConditionsList (conditions : List Condition) (eventPayload snapshotCtx : JValue) :
    Except String Bool :=
  match conditions with
  | [] => .ok true
  | c :: rest =>
    match evalCondition c eventPayload snapshotCtx with
    | .error e => .error e
    | .ok true => evalConditionsList rest eventPayload snapshotCtx
    | .ok false => .ok false

/-- Embedding of `evaluateConditions(conditions, eventPayload, context)`
(FlowEngine.js lines 39-66): an empty list is vacuously true, otherwise
conjunctive evaluation. -/
def evaluateConditions (conditions : List Condition) (eventPayload snapshotCtx : JValue) :
    Except String Bool :=
  if conditions.isEmpty then pure true
  else evalConditionsList conditions eventPayload snapshotCtx

/-- The `context` argument threaded through the flow engine: the current
Snapshot plus the optional callbacks the UI wires in.  Callbacks may throw,
which `Except String` captures. -/
structure Context where
  currentSnapshot : JValue
  runCommand : Option (JValue → Except String Unit)
  addAiSystemMessage : Option (String → Except String Unit)

/-- A flow action `.type` with its `.config` object. -/
structure Action where
  type : String
  config : JValue

/-- Convenience constructor for JS object values. -/
def mkObj (fields : List (String × JValue)) : JValue := .obj fields

/-- Embedding of `showNotification(config, eventPayload, context)`
(FlowEngine.js lines 71-88).  The `Notification`/`console.log` sinks are
pure side effects with no observable state; `context.addAiSystemMessage`
is a callback that may throw. -/
def showNotification (config eventPayload : JValue) (context : Context) :
    Except String JValue := do
  let message ← interpolateVariables (getOwn config "message") eventPayload context.currentSnapshot
  let title ← if truthy (getOwn config "title")
    then interpolateVariables (getOwn config "title") eventPayload context.currentSnapshot
    else pure (JValue.str "Flow Notification")
  match context.addAiSystemMessage with
  | some f => f ("🔔 " ++ jsToString message)
  | none => pure ()
  pure (mkObj [("success", .bool true), ("message", message), ("title", title)])

/-- Embedding of `runCommand(config, eventPayload, context)` (FlowEngine.js
lines 93-111): without a wired dispatcher the action fails with a reason;
otherwise every param is interpolated and a typed command is forwarded. -/
def runCommandAction (config eventPayload : JValue) (context : Context) :
    Except String JValue := do
  match context.runCommand with
  | none => pure (mkObj [("success", .bool false), ("reason", .str "No runCommand function available")])
  | some rc => do
    let commandType := getOwn config "commandType"
    let params := match getOwn config "params" with
      | .obj fs => fs
      | _ => []
    let interpolatedParams ← params.mapM
      (fun kv => do
        pure (kv.1, ← interpolateVariables kv.2 eventPayload context.currentSnapshot))
    let command := mkObj (("type", commandType) :: interpolatedParams)
    rc command
    pure (mkObj [("success", .bool true), ("command", command)])

/-- Embedding of `updateField(config, eventPayload, context)` (FlowEngine.js
lines 116-132): only `targetType === "task"` with a wired dispatcher
forwards an `UpdateTaskField` command; anything else fails with an
`Unsupported target type` reason. -/
def updateFieldAction (config eventPayload : JValue) (context : Context) :
    Except String JValue := do
  let targetType := getOwn config "targetType"
  let field := getOwn config "field"
  let targetId ← interpolateVariables (getOwn config "targetId") eventPayload context.currentSnapshot
  let value ← interpolateVariables (getOwn config "value") eventPayload context.currentSnapshot
  match strictEq targetType (.str "task"), context.runCommand with
  | true, some rc => do
    rc (mkObj [("type", .str "UpdateTaskField"), ("taskId", targetId),
               ("field", field), ("value", value)])
    pure (mkObj [("success", .bool true),
                 ("updated", mkObj [("targetId", targetId), ("field", field), ("value", value)])])
  | _, _ =>
    pure (mkObj [("success", .bool false),
                 ("reason", .str ("Unsupported target type: " ++ jsToString targetType))])

/-- Embedding of `logMessage(config, eventPayload, context)` (FlowEngine.js
lines 137-146): interpolates the message, writes to the console sink
(effect only) and always succeeds. -/
def logMessageAction (config eventPayload : JValue) (context : Context) :
    Except String JValue := do
  let message ← interpolateVariables (getOwn config "message") eventPayload context.currentSnapshot
  let level := if truthy (getOwn config "level") then getOwn config "level" else JValue.str "info"
  pure (mkObj [("success", .bool true), ("message", message), ("level", level)])

/-- Embedding of `executeAction(action, eventPayload, context)`
(FlowEngine.js lines 151-167): dispatch on the action type; unknown types
produce a failing result object, not an exception. -/
def executeAction (action : Action) (eventPayload : JValue) (context : Context) :
    Except String JValue :=
  let config := if isUndefined action.config then JValue.obj [] else action.config
  match action.type with
  | "show_notification" => showNotification config eventPayload context
  | "run_command" => runCommandAction config eventPayload context
  | "update_field" => updateFieldAction config eventPayload context
  | "log_message" => logMessageAction config eventPayload context
  | t => pure (mkObj [("success", .bool false), ("reason", .str ("Unknown action type: " ++ t))])

/-- One entry of the per-flow Execution Record. -/
structure ExecutionRecord where
  id : String
  flowId : JValue
  flowName : JValue
  eventType : JValue
  startTime : String
  status : String
  actionsPerformed : List (Nat × String × JValue)
  errors : List JValue
  reason : Option String
  duration : Option Int

/-- A Flow definition as consumed by `executeFlow` (only the fields the
engine reads). -/
structure Flow where
  id : JValue
  name : JValue
  enabled : JValue
  sendToBackend : JValue
  conditions : List Condition
  actions : List Action

/-- The `(success, reason?, executionId?, actionsPerformed?, errors?)`
object returned by `executeFlow`; `Option` marks fields absent on some
return paths. -/
structure FlowResult where
  success : Bool
  reason : Option String
  executionId : Option String
  actionsPerformed : Option Nat
  errors : Option (List JValue)

/-- The error entry `(actionIndex, error)` pushed when an action throws. -/
def errObj (index : Nat) (msg : String) : JValue :=
  mkObj [("actionIndex", .num index), ("error", .str msg)]

/-- Embedding of the `flow.actions.forEach((action, index) => ...)` loop
(FlowEngine.js lines 231-241), starting at index `i`: a successful action
is pushed onto `actionsPerformed` as `(index, type, result)`, a throwing
action is pushed onto `errors` as `(actionIndex, error)`, and the loop
always continues with the next action. -/
def runActionsGo (eventPayload : JValue) (context : Context) :
    Nat → List Action → List (Nat × String × JValue) × List JValue
  | _, [] => ([], [])
  | i, action :: rest =>
    let (ps, es) := runActionsGo eventPayload context (i + 1) rest
    match executeAction action eventPayload context with
    | .ok result => ((i, action.type, result) :: ps, es)
    | .error msg => (ps, errObj i msg :: es)

/-- The `Keep last 100 executions` block (FlowEngine.js lines 256-260):
prepend the record, then drop everything past 100 entries. -/
def pushTrim (record : ExecutionRecord) (log : List ExecutionRecord) :
    List ExecutionRecord :=
  if (record :: log).length > 100 then (record :: log).take 100 else record :: log

/-- Embedding of `executeFlow(flow, eventPayload, context)` (FlowEngine.js
lines 199-268).  The module-level mutable `flowExecutionHistory` is passed
in and returned explicitly; the nondeterministic execution id and clock are
parameters.  Note the conditions-not-met early return prepends its record
WITHOUT the capacity trim. -/
def executeFlow (flow? : Option Flow) (eventPayload : JValue) (context : Context)
    (executionId : String) (now : String) (log : List ExecutionRecord) :
    FlowResult × List ExecutionRecord :=
  match flow? with
  | none =>
    (⟨false, some "Flow disabled or not found", none, none, none⟩, log)
  | some flow =>
    if !truthy flow.enabled then
      (⟨false, some "Flow disabled or not found", none, none, none⟩, log)
    else
      let rec0 : ExecutionRecord :=
        ⟨executionId, flow.id, flow.name, getOwn eventPayload "eventType", now,
         "running", [], [], none, none⟩
      match (if flow.conditions.length > 0
             then evaluateConditions flow.conditions eventPayload context.currentSnapshot
             else Except.ok true) with
      | .error e =>
        -- engine-level catch: whole record marked failed, still appended
        let rec1 := { rec0 with status := "failed", errors := [mkObj [("error", .str e)]] }
        (⟨false, none, some executionId, some rec1.actionsPerformed.length, some rec1.errors⟩,
         pushTrim rec1 log)
      | .ok false =>
        let rec1 := { rec0 with status := "skipped", reason := some "Conditions not met" }
        (⟨false, some "Conditions not met", some executionId, none, none⟩, rec1 :: log)
      | .ok true =>
        let (performed, errs) := runActionsGo eventPayload context 0 flow.actions
        -- sendToBackend (lines 245-247) only touches console/window sinks and
        -- swallows its own exceptions; it has no observable effect here.
        let status := if errs.length > 0 then "completed_with_errors" else "completed"
        let rec1 := { rec0 with status := status, actionsPerformed := performed,
                                errors := errs, duration := some 0 }
        (⟨status == "completed", none, some executionId, some performed.length, some errs⟩,
         pushTrim rec1 log)


/-- A Snapshot as stored by `useHistory` (src/main.jsx): the stamped
metadata plus the workspace payload (tasks, schedule, docs, ... —
collapsed into one JS value, which is all the history engine inspects). -/
structure Snapshot where
  id : Nat
  label : String
  timestamp : String
  committed : Bool
  data : JValue

/-- The state of the `useHistory` hook: the three `useState` cells
`history`, `currentIndex`, `commitIndex`. -/
structure HistoryState where
  history : List Snapshot
  currentIndex : Nat
  commitIndex : Nat

/-- Initial hook state: `[initialSnapshot]`, both indices 0. -/
def initHistory (initialSnapshot : Snapshot) : HistoryState :=
  ⟨[initialSnapshot], 0, 0⟩

/-- The derived value `currentSnapshot = history[currentIndex]`
(src/main.jsx line 35); `none` models the JS `undefined` when the index is
out of range. -/
def currentSnapshot (s : HistoryState) : Option Snapshot :=
  s.history.get? s.currentIndex

/-- Derived `canUndo = currentIndex > commitIndex` (line 37). -/
def canUndo (s : HistoryState) : Bool := s.commitIndex < s.currentIndex

/-- Derived `canRedo = currentIndex < history.length - 1` (line 38),
stated over integers exactly as JS evaluates it. -/
def canRedo (s : HistoryState) : Bool := s.currentIndex + 1 < s.history.length

/-- Embedding of `applyChange(label, mutator)` (src/main.jsx lines 47-72).
The deep clone `JSON.parse(JSON.stringify(base))` is the identity on the
snapshot value (object identity is treated in the heap model below); the
mutator receives the clone and may throw, in which case the exception
propagates before either `setState` call runs.  On success the metadata is
stamped with `stepId = history.length` — the length BEFORE the forward
history is trimmed — the history is trimmed to `currentIndex + 1` entries,
the new snapshot is appended and the cursor advances. -/
def applyChange (now label : String) (mutator : Snapshot → Except String Snapshot)
    (s : HistoryState) : Except String HistoryState :=
  match s.history.get? s.currentIndex with
  | none => .error "SyntaxError: JSON.parse on undefined"
  | some base =>
    match mutator base with
    | .error e => .error e
    | .ok clone =>
      let stepId := s.history.length
      let stamped := { clone with id := stepId, label := label, timestamp := now }
      Except.ok { history := s.history.take (s.currentIndex + 1) ++ [stamped],
                  currentIndex := s.currentIndex + 1,
                  commitIndex := s.commitIndex }

/-- Embedding of `undo()` (lines 77-80): guarded decrement. -/
def undo (s : HistoryState) : HistoryState :=
  if canUndo s then { s with currentIndex := s.currentIndex - 1 } else s

/-- Embedding of `redo()` (lines 85-88): guarded increment. -/
def redo (s : HistoryState) : HistoryState :=
  if canRedo s then { s with currentIndex := s.currentIndex + 1 } else s

/-- Embedding of `commit()` (lines 94-112): the current snapshot is
replaced by a committed copy with an annotated label, and `commitIndex`
becomes `currentIndex`. -/
def commitOp (s : HistoryState) : HistoryState :=
  match s.history.get? s.currentIndex with
  | none => { s with commitIndex := s.currentIndex }
  | some snap =>
    { s with
      history := s.history.set s.currentIndex
        { snap with committed := true,
                    label := (if snap.label = "" then "Snapshot" else snap.label) ++ " (committed)" },
      commitIndex := s.currentIndex }

/-- Embedding of `jump(index)` (lines 120-125): rejected (state unchanged)
when the index is below `commitIndex`, negative, or past the end.  The
index is an `Int` because the JS caller may pass any number. -/
def jump (index : Int) (s : HistoryState) : HistoryState :=
  if index < (s.commitIndex : Int) ∨ index < 0 ∨ (s.history.length : Int) ≤ index then s
  else { s with currentIndex := index.toNat }

/-- One UI-driven call into the hook. -/
inductive HOp where
  | applyChange (now label : String) (mutator : Snapshot → Except String Snapshot)
  | undo
  | redo
  | commit
  | jump (index : Int)

/-- One operation applied to the hook state.  A throwing `applyChange`
propagates its exception before either `setState` runs, so the observable
state is unchanged. -/
def histStep (s : HistoryState) (op : HOp) : HistoryState :=
  match op with
  | .applyChange now label m =>
    match applyChange now label m s with
    | .ok s' => s'
    | .error _ => s
  | .undo => undo s
  | .redo => redo s
  | .commit => commitOp s
  | .jump i => jump i s

/-- A sequence of operations. -/
def histRun (ops : List HOp) (s : HistoryState) : HistoryState :=
  ops.foldl histStep s

/-- The History Engine invariant `0 ≤ commitIndex ≤ currentIndex ≤
snapshots.length - 1` (the first bound is inherent to `Nat`). -/
def HistInv (s : HistoryState) : Prop :=
  s.commitIndex ≤ s.currentIndex ∧ s.currentIndex + 1 ≤ s.history.length

theorem applyChange_ok_state (now label : String)
    (m : Snapshot → Except String Snapshot) (s s' : HistoryState)
    (h : applyChange now label m s = .ok s') :
    s'.currentIndex = s.currentIndex + 1 ∧ s'.commitIndex = s.commitIndex ∧
    s'.history.length = (s.history.take (s.currentIndex + 1)).length + 1 := by
  unfold applyChange at h
  split at h
  · exact absurd h (by simp)
  · split at h
    · exact absurd h (by simp)
    · cases h
      simp

theorem histStep_inv (s : HistoryState) (op : HOp) (h : HistInv s) :
    HistInv (histStep s op) ∧ s.commitIndex ≤ (histStep s op).commitIndex := by
  obtain ⟨h1, h2⟩ := h
  cases op with
  | applyChange now label m =>
    rcases ha : applyChange now label m s with e | s'
    · simp only [histStep, ha]
      exact ⟨⟨h1, h2⟩, le_refl _⟩
    · obtain ⟨hc, hk, hl⟩ := applyChange_ok_state now label m s s' ha
      simp only [List.length_take] at hl
      simp only [histStep, ha]
      exact ⟨⟨by omega, by omega⟩, by omega⟩
  | undo =>
    have : histStep s .undo = undo s := rfl
    rw [this]
    unfold undo canUndo
    split <;> rename_i hle
    · simp only [decide_eq_true_eq] at hle
      refine ⟨⟨?_, ?_⟩, le_refl _⟩
      · show s.commitIndex ≤ s.currentIndex - 1
        omega
      · show s.currentIndex - 1 + 1 ≤ s.history.length
        omega
    · exact ⟨⟨h1, h2⟩, le_refl _⟩
  | redo =>
    have : histStep s .redo = redo s := rfl
    rw [this]
    unfold redo canRedo
    split <;> rename_i hle
    · simp only [decide_eq_true_eq] at hle
      refine ⟨⟨?_, ?_⟩, le_refl _⟩
      · show s.commitIndex ≤ s.currentIndex + 1
        omega
      · show s.currentIndex + 1 + 1 ≤ s.history.length
        omega
    · exact ⟨⟨h1, h2⟩, le_refl _⟩
  | commit =>
    have : histStep s .commit = commitOp s := rfl
    rw [this]
    unfold commitOp
    split
    · exact ⟨⟨le_refl _, h2⟩, h1⟩
    · refine ⟨⟨le_refl _, ?_⟩, h1⟩
      show s.currentIndex + 1 ≤ (s.history.set s.currentIndex _).length
      simp only [List.length_set]
      exact h2
  | jump i =>
    have : histStep s (.jump i) = jump i s := rfl
    rw [this]
    unfold jump
    split <;> rename_i hg
    · exact ⟨⟨h1, h2⟩, le_refl _⟩
    · push_neg at hg
      obtain ⟨hg1, hg2, hg3⟩ := hg
      refine ⟨⟨?_, ?_⟩, le_refl _⟩
      · show s.commitIndex ≤ i.toNat
        omega
      · show i.toNat + 1 ≤ s.history.length
        omega

theorem histRun_inv (ops : List HOp) (s : HistoryState) (h : HistInv s) :
    HistInv (histRun ops s) ∧ s.commitIndex ≤ (histRun ops s).commitIndex := by
  induction ops generalizing s with
  | nil => exact ⟨h, le_refl _⟩
  | cons op rest ih =>
    obtain ⟨hi, hm⟩ := histStep_inv s op h
    obtain ⟨hi', hm'⟩ := ih (histStep s op) hi
    exact ⟨hi', le_trans hm hm'⟩

theorem applyChange_total_ok (now label : String) (f : Snapshot → Snapshot)
    (s : HistoryState) (base : Snapshot)
    (hbase : s.history.get? s.currentIndex = some base) :
    applyChange now label (fun c => .ok (f c)) s =
      .ok { history := s.history.take (s.currentIndex + 1) ++
              [{ f base with id := s.history.length, label := label, timestamp := now }],
            currentIndex := s.currentIndex + 1, commitIndex := s.commitIndex } := by
  unfold applyChange
  rw [hbase]

theorem histInv_get (s : HistoryState) (h : HistInv s) :
    ∃ base, s.history.get? s.currentIndex = some base := by
  obtain ⟨_, h2⟩ := h
  have hlt : s.currentIndex < s.history.length := by omega
  exact ⟨s.history.get ⟨s.currentIndex, hlt⟩, List.get?_eq_get hlt⟩

/-- C1: starting from the initial hook state, every sequence of
`applyChange`/`undo`/`redo`/`commit`/`jump` operations preserves
`0 ≤ commitIndex ≤ currentIndex ≤ history.length - 1` (each prefix of the
sequence is itself such a sequence, so the invariant holds after every
operation), and `commitIndex` never decreases along the run — in
particular it is unchanged by `undo`/`redo`/`jump`, which never modify it,
and `currentIndex` is never observed below `commitIndex`. -/
theorem useHistory_commit_invariant (initialSnapshot : Snapshot)
    (ops pre suf : List HOp) (hsplit : ops = pre ++ suf) :
    ((histRun ops (initHistory initialSnapshot)).commitIndex ≤
       (histRun ops (initHistory initialSnapshot)).currentIndex ∧
     (histRun ops (initHistory initialSnapshot)).currentIndex + 1 ≤
       (histRun ops (initHistory initialSnapshot)).history.length) ∧
    (histRun pre (initHistory initialSnapshot)).commitIndex ≤
      (histRun ops (initHistory initialSnapshot)).commitIndex ∧
    ((undo (histRun pre (initHistory initialSnapshot))).commitIndex =
       (histRun pre (initHistory initialSnapshot)).commitIndex ∧
     (redo (histRun pre (initHistory initialSnapshot))).commitIndex =
       (histRun pre (initHistory initialSnapshot)).commitIndex ∧
     ∀ i, (jump i (histRun pre (initHistory initialSnapshot))).commitIndex =
       (histRun pre (initHistory initialSnapshot)).commitIndex) := by
  have hinit : HistInv (initHistory initialSnapshot) := ⟨le_refl 0, by simp [initHistory]⟩
  obtain ⟨hpre, _⟩ := histRun_inv pre (initHistory initialSnapshot) hinit
  have hrun : histRun ops (initHistory initialSnapshot) =
      histRun suf (histRun pre (initHistory initialSnapshot)) := by
    rw [hsplit]
    exact List.foldl_append histStep (initHistory initialSnapshot) pre suf
  obtain ⟨hops, hmono⟩ := histRun_inv suf (histRun pre (initHistory initialSnapshot)) hpre
  refine ⟨by rw [hrun]; exact hops, by rw [hrun]; exact hmono, ?_, ?_, ?_⟩
  · unfold undo; split <;> rfl
  · unfold redo; split <;> rfl
  · intro i; unfold jump; split <;> rfl

theorem useHistory_commit_invariant_witness :
    ([HOp.undo, HOp.commit] = [HOp.undo] ++ [HOp.commit]) ∧
    (((histRun [HOp.undo, HOp.commit]
        (initHistory ⟨0, "init", "t0", false, JValue.obj []⟩)).commitIndex ≤
       (histRun [HOp.undo, HOp.commit]
        (initHistory ⟨0, "init", "t0", false, JValue.obj []⟩)).currentIndex ∧
      (histRun [HOp.undo, HOp.commit]
        (initHistory ⟨0, "init", "t0", false, JValue.obj []⟩)).currentIndex + 1 ≤
       (histRun [HOp.undo, HOp.commit]
        (initHistory ⟨0, "init", "t0", false, JValue.obj []⟩)).history.length) ∧
     (histRun [HOp.undo] (initHistory ⟨0, "init", "t0", false, JValue.obj []⟩)).commitIndex ≤
       (histRun [HOp.undo, HOp.commit]
        (initHistory ⟨0, "init", "t0", false, JValue.obj []⟩)).commitIndex ∧
     ((undo (histRun [HOp.undo] (initHistory ⟨0, "init", "t0", false, JValue.obj []⟩))).commitIndex =
        (histRun [HOp.undo] (initHistory ⟨0, "init", "t0", false, JValue.obj []⟩)).commitIndex ∧
      (redo (histRun [HOp.undo] (initHistory ⟨0, "init", "t0", false, JValue.obj []⟩))).commitIndex =
        (histRun [HOp.undo] (initHistory ⟨0, "init", "t0", false, JValue.obj []⟩)).commitIndex ∧
      ∀ i, (jump i (histRun [HOp.undo]
        (initHistory ⟨0, "init", "t0", false, JValue.obj []⟩))).commitIndex =
        (histRun [HOp.undo] (initHistory ⟨0, "init", "t0", false, JValue.obj []⟩)).commitIndex)) :=
  ⟨rfl, useHistory_commit_invariant ⟨0, "init", "t0", false, JValue.obj []⟩
    [HOp.undo, HOp.commit] [HOp.undo] [HOp.commit] rfl⟩

/-- C6: after `undo()` and then a (non-throwing) `applyChange`, the redo
branch is gone: the new history is the old history up to the post-undo
cursor plus the one new snapshot, the cursor sits on the last element, and
a subsequent `redo()` is a no-op that leaves the whole state — in
particular `currentIndex` — unchanged. -/
theorem undo_applyChange_kills_redo (s : HistoryState) (hInv : HistInv s)
    (now label : String) (f : Snapshot → Snapshot) :
    redo (histStep (undo s) (.applyChange now label (fun c => .ok (f c)))) =
      histStep (undo s) (.applyChange now label (fun c => .ok (f c))) ∧
    (redo (histStep (undo s) (.applyChange now label (fun c => .ok (f c))))).currentIndex =
      (histStep (undo s) (.applyChange now label (fun c => .ok (f c)))).currentIndex ∧
    (histStep (undo s) (.applyChange now label (fun c => .ok (f c)))).currentIndex =
      (undo s).currentIndex + 1 ∧
    (histStep (undo s) (.applyChange now label (fun c => .ok (f c)))).history.length =
      (undo s).currentIndex + 2 ∧
    (histStep (undo s) (.applyChange now label (fun c => .ok (f c)))).history.take
        ((undo s).currentIndex + 1) =
      (undo s).history.take ((undo s).currentIndex + 1) := by
  obtain ⟨hInv1, _⟩ := histStep_inv s .undo hInv
  have hInv1' : HistInv (undo s) := hInv1
  obtain ⟨base, hbase⟩ := histInv_get (undo s) hInv1'
  have hok := applyChange_total_ok now label f (undo s) base hbase
  have hstep : histStep (undo s) (.applyChange now label (fun c => .ok (f c))) =
      { history := (undo s).history.take ((undo s).currentIndex + 1) ++
          [{ f base with id := (undo s).history.length, label := label, timestamp := now }],
        currentIndex := (undo s).currentIndex + 1, commitIndex := (undo s).commitIndex } := by
    simp only [histStep, hok]
  have htklen : ((undo s).history.take ((undo s).currentIndex + 1)).length =
      (undo s).currentIndex + 1 := by
    obtain ⟨_, hl⟩ := hInv1'
    simp only [List.length_take]
    omega
  have hlen : (histStep (undo s) (.applyChange now label (fun c => .ok (f c)))).history.length =
      (undo s).currentIndex + 2 := by
    rw [hstep]
    simp only [List.length_append, List.length_cons, List.length_nil, htklen]
  have hcur : (histStep (undo s) (.applyChange now label (fun c => .ok (f c)))).currentIndex =
      (undo s).currentIndex + 1 := by rw [hstep]
  have hnoredo : redo (histStep (undo s) (.applyChange now label (fun c => .ok (f c)))) =
      histStep (undo s) (.applyChange now label (fun c => .ok (f c))) := by
    unfold redo canRedo
    split <;> rename_i hc
    · simp only [decide_eq_true_eq, hcur, hlen] at hc
      omega
    · rfl
  refine ⟨hnoredo, by rw [hnoredo], hcur, hlen, ?_⟩
  rw [hstep]
  calc ((undo s).history.take ((undo s).currentIndex + 1) ++
        [{ f base with id := (undo s).history.length, label := label, timestamp := now }]).take
          ((undo s).currentIndex + 1)
      = (undo s).history.take ((undo s).currentIndex + 1) := by
        rw [List.take_append_of_le_length (by omega : (undo s).currentIndex + 1 ≤
          ((undo s).history.take ((undo s).currentIndex + 1)).length)]
        rw [List.take_take]
        simp

theorem undo_applyChange_kills_redo_witness :
    (HistInv (initHistory ⟨0, "init", "t0", false, JValue.obj []⟩)) ∧
    redo (histStep (undo (initHistory ⟨0, "init", "t0", false, JValue.obj []⟩))
        (.applyChange "t1" "edit" (fun c => .ok c))) =
      histStep (undo (initHistory ⟨0, "init", "t0", false, JValue.obj []⟩))
        (.applyChange "t1" "edit" (fun c => .ok c)) :=
  ⟨⟨le_refl 0, by simp [initHistory]⟩,
   (undo_applyChange_kills_redo (initHistory ⟨0, "init", "t0", false, JValue.obj []⟩)
     ⟨le_refl 0, by simp [initHistory]⟩ "t1" "edit" (fun c => c)).1⟩

/-- C7: `applyChange` is fail-atomic.  The mutator runs before either
`setState` call, so if it throws, the exception propagates and the hook
state — history list, `currentIndex` and `commitIndex` — is exactly the
pre-call state; in particular nothing is appended and no stored snapshot
is altered. -/
theorem applyChange_mutator_throw_atomic (s : HistoryState) (now label msg : String)
    (m : Snapshot → Except String Snapshot)
    (hthrow : ∀ b, s.history.get? s.currentIndex = some b → m b = .error msg) :
    histStep s (.applyChange now label m) = s ∧
    (histStep s (.applyChange now label m)).history = s.history ∧
    (histStep s (.applyChange now label m)).currentIndex = s.currentIndex ∧
    (histStep s (.applyChange now label m)).commitIndex = s.commitIndex := by
  have hstate : histStep s (.applyChange now label m) = s := by
    rcases hb : s.history.get? s.currentIndex with _ | b
    · simp only [histStep, applyChange, hb]
    · simp only [histStep, applyChange, hb, hthrow b hb]
  exact ⟨hstate, by rw [hstate], by rw [hstate], by rw [hstate]⟩

theorem applyChange_mutator_throw_atomic_witness :
    (∀ b, (initHistory ⟨0, "init", "t0", false, JValue.obj []⟩).history.get?
        (initHistory ⟨0, "init", "t0", false, JValue.obj []⟩).currentIndex = some b →
      (fun _ => (.error "boom" : Except String Snapshot)) b = .error "boom") ∧
    histStep (initHistory ⟨0, "init", "t0", false, JValue.obj []⟩)
        (.applyChange "t1" "edit" (fun _ => .error "boom")) =
      initHistory ⟨0, "init", "t0", false, JValue.obj []⟩ :=
  ⟨fun _ _ => rfl,
   (applyChange_mutator_throw_atomic (initHistory ⟨0, "init", "t0", false, JValue.obj []⟩)
     "t1" "edit" "boom" (fun _ => .error "boom") (fun _ _ => rfl)).1⟩

/-- The hook state after two changes and two undos: history holds 3
snapshots, the cursor is back at index 0, so the next `applyChange` must
truncate to 1 entry before appending. -/
def c9pre : HistoryState :=
  histRun [HOp.applyChange "t1" "A" (fun c => .ok c),
           HOp.applyChange "t2" "B" (fun c => .ok c),
           HOp.undo, HOp.undo]
    (initHistory ⟨0, "init", "t0", false, JValue.obj []⟩)

/-- The state after one more `applyChange` from `c9pre`. -/
def c9post : HistoryState := histStep c9pre (.applyChange "t3" "C" (fun c => .ok c))

/-- C9 counterexample: after two changes and two undos the redo branch
holds two snapshots; the next `applyChange` truncates the list to 1 entry
before appending, so the claimed id (the post-truncation length, 1) would
be 1 — but the code stamps `stepId = history.length` BEFORE truncation,
and the appended snapshot's id is 3. -/
theorem applyChange_stepId_counterexample :
    (c9pre.history.take (c9pre.currentIndex + 1)).length = 1 ∧
    c9post.currentIndex = 1 ∧
    (c9post.history.get? 1).map Snapshot.id = some 3 ∧
    ¬ (c9post.history.get? 1).map Snapshot.id = some 1 := by
  refine ⟨rfl, rfl, rfl, ?_⟩
  intro h
  rw [(rfl : (c9post.history.get? 1).map Snapshot.id = some 3)] at h
  exact absurd (Option.some.inj h) (by decide)

/-- C9 amended: a (non-throwing) `applyChange` stamps the new snapshot
with `id = history.length` taken BEFORE the redo branch is truncated (so
after undos the id can exceed the post-truncation length), sets its label
and timestamp, truncates the redo branch, appends the new snapshot as the
last element and advances `currentIndex` onto it. -/
theorem applyChange_stamps_and_appends (s : HistoryState) (hInv : HistInv s)
    (now label : String) (f : Snapshot → Snapshot) :
    ∃ stamped : Snapshot,
      (histStep s (.applyChange now label (fun c => .ok (f c)))).history =
        s.history.take (s.currentIndex + 1) ++ [stamped] ∧
      stamped.id = s.history.length ∧
      stamped.label = label ∧
      stamped.timestamp = now ∧
      (histStep s (.applyChange now label (fun c => .ok (f c)))).currentIndex =
        s.currentIndex + 1 ∧
      (histStep s (.applyChange now label (fun c => .ok (f c)))).history.get?
        (s.currentIndex + 1) = some stamped := by
  obtain ⟨base, hbase⟩ := histInv_get s hInv
  have hok := applyChange_total_ok now label f s base hbase
  have htklen : (s.history.take (s.currentIndex + 1)).length = s.currentIndex + 1 := by
    obtain ⟨_, hl⟩ := hInv
    simp only [List.length_take]
    omega
  refine ⟨{ f base with id := s.history.length, label := label, timestamp := now },
    ?_, rfl, rfl, rfl, ?_, ?_⟩
  · simp only [histStep, hok]
  · simp only [histStep, hok]
  · simp only [histStep, hok]
    rw [List.get?_append_right htklen.le, htklen]
    simp

theorem applyChange_stamps_and_appends_witness :
    HistInv (initHistory ⟨0, "init", "t0", false, JValue.obj []⟩) ∧
    ∃ stamped : Snapshot,
      (histStep (initHistory ⟨0, "init", "t0", false, JValue.obj []⟩)
          (.applyChange "t1" "A" (fun c => .ok c))).history =
        (initHistory ⟨0, "init", "t0", false, JValue.obj []⟩).history.take
          ((initHistory ⟨0, "init", "t0", false, JValue.obj []⟩).currentIndex + 1) ++ [stamped] ∧
      stamped.id = (initHistory ⟨0, "init", "t0", false, JValue.obj []⟩).history.length ∧
      stamped.label = "A" ∧
      stamped.timestamp = "t1" ∧
      (histStep (initHistory ⟨0, "init", "t0", false, JValue.obj []⟩)
          (.applyChange "t1" "A" (fun c => .ok c))).currentIndex =
        (initHistory ⟨0, "init", "t0", false, JValue.obj []⟩).currentIndex + 1 ∧
      (histStep (initHistory ⟨0, "init", "t0", false, JValue.obj []⟩)
          (.applyChange "t1" "A" (fun c => .ok c))).history.get?
        ((initHistory ⟨0, "init", "t0", false, JValue.obj []⟩).currentIndex + 1) = some stamped :=
  ⟨⟨le_refl 0, by simp [initHistory]⟩,
   applyChange_stamps_and_appends (initHistory ⟨0, "init", "t0", false, JValue.obj []⟩)
     ⟨le_refl 0, by simp [initHistory]⟩ "t1" "A" (fun c => c)⟩

theorem getMember_ok (cur : JValue) (k : String) (h : isNullish cur = false) :
    getMember cur k = .ok (getOwn cur k) := by
  cases cur <;> simp_all [isNullish, getMember]

theorem pathWalk_ok (parts : List String) (cur : JValue) :
    ∃ v, pathWalk cur parts = .ok v := by
  induction parts generalizing cur with
  | nil => exact ⟨cur, rfl⟩
  | cons p rest ih =>
    by_cases h : isNullish cur = true
    · exact ⟨JValue.undefined, by simp [pathWalk, h]⟩
    · simp only [Bool.not_eq_true] at h
      obtain ⟨v, hv⟩ := ih (getOwn cur p)
      exact ⟨v, by simp [pathWalk, h, getMember_ok cur p h, hv]⟩

theorem getValueFromPath_ok (obj : JValue) (path : String) :
    ∃ v, getValueFromPath obj path = .ok v := by
  unfold getValueFromPath
  split
  · exact ⟨.undefined, rfl⟩
  · exact pathWalk_ok _ obj

theorem resolveField_ok (p s : JValue) (path : String) :
    ∃ v, resolveField p s path = .ok v := by
  unfold resolveField
  obtain ⟨a, ha⟩ := getValueFromPath_ok p path
  rw [ha]
  by_cases ht : truthy a
  · exact ⟨a, by simp [ht]⟩
  · simpa [ht] using getValueFromPath_ok s path

theorem interpGo_nil (p s : JValue) : interpGo p s [] = .ok [] := by
  simp only [interpGo]
  rfl

theorem interpGo_single_brace (p s : JValue) : interpGo p s ['{'] = .ok ['{'] := by
  simp only [interpGo]
  rfl

theorem interpGo_token (p s : JValue) (cs2 tok rest2 : List Char)
    (hsp : splitToken cs2 = some (tok, rest2)) :
    interpGo p s ('{' :: '{' :: cs2) =
      (match resolveField p s (String.mk tok) with
       | .error e => .error e
       | .ok v =>
         match interpGo p s rest2 with
         | .error e => .error e
         | .ok tail =>
           .ok ((if isUndefined v then '{' :: '{' :: (tok ++ ['}', '}'])
                 else (jsToString v).toList) ++ tail)) := by
  simp only [interpGo, reduceIte]
  split
  next tok2 rest3 hsp2 =>
    rw [hsp] at hsp2
    have h1 : tok = tok2 := congrArg Prod.fst (Option.some.inj hsp2)
    have h2 : rest2 = rest3 := congrArg Prod.snd (Option.some.inj hsp2)
    subst h1
    subst h2
    rfl
  next hsp2 =>
    rw [hsp] at hsp2
    exact absurd hsp2 (by simp)

theorem interpGo_noToken (p s : JValue) (cs2 : List Char)
    (hsp : splitToken cs2 = none) :
    interpGo p s ('{' :: '{' :: cs2) =
      (match interpGo p s ('{' :: cs2) with
       | .error e => .error e
       | .ok tail => .ok ('{' :: tail)) := by
  simp only [interpGo, reduceIte]
  split
  next tok2 rest3 hsp2 =>
    rw [hsp] at hsp2
    exact absurd hsp2 (by simp)
  next hsp2 => rfl

theorem interpGo_notBrace2 (p s : JValue) (c2 : Char) (cs2 : List Char)
    (hne : c2 ≠ '{') :
    interpGo p s ('{' :: c2 :: cs2) =
      (match interpGo p s (c2 :: cs2) with
       | .error e => .error e
       | .ok tail => .ok ('{' :: tail)) := by
  simp only [interpGo, reduceIte, if_neg hne]

theorem interpGo_notBrace (p s : JValue) (c : Char) (cs : List Char)
    (hne : c ≠ '{') :
    interpGo p s (c :: cs) =
      (match interpGo p s cs with
       | .error e => .error e
       | .ok tail => .ok (c :: tail)) := by
  cases cs with
  | nil => simp only [interpGo, if_neg hne, interpGo_nil]
  | cons c2 cs2 => simp only [interpGo, if_neg hne]

theorem interpGo_ok (p s : JValue) (cs : List Char) :
    ∃ out, interpGo p s cs = .ok out := by
  induction cs using interpGo.induct p s
  case case1 => exact ⟨[], interpGo_nil p s⟩
  case case2 => exact ⟨['{'], interpGo_single_brace p s⟩
  case case3 cs2 tok rest2 hsp e hres =>
    obtain ⟨v, hv⟩ := resolveField_ok p s (String.mk tok)
    rw [hv] at hres
    exact absurd hres (by simp)
  case case4 cs2 tok rest2 hsp v hres e herr ih =>
    obtain ⟨out, hout⟩ := ih
    rw [hout] at herr
    exact absurd herr (by simp)
  case case5 cs2 tok rest2 hsp v hres tail htail ih =>
    refine ⟨(if isUndefined v then '{' :: '{' :: (tok ++ ['}', '}'])
             else (jsToString v).toList) ++ tail, ?_⟩
    rw [interpGo_token p s cs2 tok rest2 hsp, hres, htail]
  case case6 cs2 hsp e herr ih =>
    obtain ⟨out, hout⟩ := ih
    rw [hout] at herr
    exact absurd herr (by simp)
  case case7 cs2 hsp tail htail ih =>
    exact ⟨'{' :: tail, by rw [interpGo_noToken p s cs2 hsp, htail]⟩
  case case8 c2 cs2 hne e herr ih =>
    obtain ⟨out, hout⟩ := ih
    rw [hout] at herr
    exact absurd herr (by simp)
  case case9 c2 cs2 hne tail htail ih =>
    exact ⟨'{' :: tail, by rw [interpGo_notBrace2 p s c2 cs2 hne, htail]⟩
  case case10 c2 cs2 hne e herr ih =>
    obtain ⟨out, hout⟩ := ih
    rw [hout] at herr
    exact absurd herr (by simp)
  case case11 c2 cs2 hne tail htail ih =>
    exact ⟨c2 :: tail, by rw [interpGo_notBrace p s c2 cs2 hne, htail]⟩

theorem interpolateVariables_ok (str p s : JValue) :
    ∃ v, interpolateVariables str p s = .ok v := by
  cases str with
  | str sv =>
    obtain ⟨out, hout⟩ := interpGo_ok p s sv.toList
    exact ⟨.str (String.mk out), by simp only [interpolateVariables, hout]⟩
  | undefined => exact ⟨_, rfl⟩
  | null => exact ⟨_, rfl⟩
  | bool b => exact ⟨_, rfl⟩
  | num n => exact ⟨_, rfl⟩
  | obj fs => exact ⟨_, rfl⟩

theorem evalCondition_ok (c : Condition) (p s : JValue) :
    ∃ b, evalCondition c p s = .ok b := by
  unfold evalCondition
  obtain ⟨a, ha⟩ := resolveField_ok p s c.field
  rw [ha]
  split
  next e he => exact absurd he (by simp)
  next v hv => split <;> exact ⟨_, rfl⟩

theorem evalConditionsList_ok (conds : List Condition) (p s : JValue) :
    ∃ b, evalConditionsList conds p s = .ok b := by
  induction conds with
  | nil => exact ⟨true, rfl⟩
  | cons c rest ih =>
    obtain ⟨b, hb⟩ := evalCondition_ok c p s
    cases b
    · exact ⟨false, by simp [evalConditionsList, hb]⟩
    · obtain ⟨b', hb'⟩ := ih
      exact ⟨b', by simp [evalConditionsList, hb, hb']⟩

theorem evaluateConditions_ok (conds : List Condition) (p s : JValue) :
    ∃ b, evaluateConditions conds p s = .ok b := by
  unfold evaluateConditions
  split
  · exact ⟨true, rfl⟩
  · exact evalConditionsList_ok conds p s

theorem pathWalk_undefined (rest : List String) : pathWalk JValue.undefined rest = .ok .undefined := by
  cases rest <;> rfl

theorem pathWalk_null (rest : List String) (p : String) :
    pathWalk JValue.null (p :: rest) = .ok .undefined := rfl

/-- C10: dotted-path lookup is total.  `getValueFromPath` never throws —
for every object and path it returns a value (`Except.ok`), and it returns
`undefined` when the object is missing, when the path is empty, when a
segment is absent, and when an intermediate value is `undefined` or
`null`; consequently condition evaluation and string interpolation also
never throw. -/
theorem getValueFromPath_total :
    (∀ (obj : JValue) (path : String), ∃ v, getValueFromPath obj path = .ok v) ∧
    (∀ path : String, getValueFromPath .undefined path = .ok .undefined) ∧
    (∀ obj : JValue, getValueFromPath obj "" = .ok .undefined) ∧
    (∀ (p : String) (rest : List String),
      pathWalk (JValue.obj []) (p :: rest) = .ok .undefined) ∧
    (∀ (p : String) (rest : List String),
      pathWalk .undefined (p :: rest) = .ok .undefined ∧
      pathWalk .null (p :: rest) = .ok .undefined) ∧
    (∀ (conds : List Condition) (eventPayload snapshotCtx : JValue),
      ∃ b, evaluateConditions conds eventPayload snapshotCtx = .ok b) ∧
    (∀ (str eventPayload snapshotCtx : JValue),
      ∃ v, interpolateVariables str eventPayload snapshotCtx = .ok v) := by
  refine ⟨getValueFromPath_ok, fun path => rfl, ?_, ?_, ?_,
    evaluateConditions_ok, interpolateVariables_ok⟩
  · intro obj
    unfold getValueFromPath
    simp
  · intro p rest
    exact pathWalk_undefined rest
  · intro p rest
    exact ⟨pathWalk_undefined (p :: rest), rfl⟩

/-- C4 counterexample: the payload defines `x = 0` (a defined, falsy
value) and the snapshot has `x = 5`.  The claim says the payload value 0
must be used — so `equals 5` would be false and a token would render "0" —
but the `||` fallback uses the snapshot: the condition evaluates to true
and the token renders "5". -/
theorem payload_first_counterexample :
    getValueFromPath (JValue.obj [("x", JValue.num 0)]) "x" = .ok (JValue.num 0) ∧
    JValue.num 0 ≠ JValue.undefined ∧
    evaluateConditions [⟨"x", "equals", JValue.num 5⟩]
      (JValue.obj [("x", JValue.num 0)]) (JValue.obj [("x", JValue.num 5)]) = .ok true ∧
    interpolateVariables (JValue.str "\x7b\x7bx\x7d\x7d")
      (JValue.obj [("x", JValue.num 0)]) (JValue.obj [("x", JValue.num 5)]) =
      .ok (JValue.str "5") := by
  refine ⟨rfl, fun h => JValue.noConfusion h, rfl, ?_⟩
  have h1 := interpGo_token (JValue.obj [("x", JValue.num 0)])
    (JValue.obj [("x", JValue.num 5)]) ['x', '}', '}'] ['x'] [] rfl
  rw [show resolveField (JValue.obj [("x", JValue.num 0)])
      (JValue.obj [("x", JValue.num 5)]) (String.mk ['x']) = .ok (JValue.num 5) from rfl,
    interpGo_nil] at h1
  simp only [interpolateVariables]
  rw [show ("\x7b\x7bx\x7d\x7d" : String).toList = '{' :: '{' :: ['x', '}', '}'] from rfl]
  rw [h1]
  rfl

/-- C4 amended: field resolution (shared by condition evaluation and
interpolation) is payload-first only for truthy payload values: whenever
the payload path resolves to a truthy value it is used, but any falsy
payload value — `undefined`, `null`, `false`, `0`, the empty string — falls
through to the snapshot context, because the code combines the two lookups
with JS `||`. -/
theorem resolveField_truthy_first (eventPayload snapshotCtx : JValue) (path : String)
    (a : JValue) (ha : getValueFromPath eventPayload path = .ok a) :
    resolveField eventPayload snapshotCtx path =
      (if truthy a then .ok a else getValueFromPath snapshotCtx path) := by
  unfold resolveField
  rw [ha]

theorem resolveField_truthy_first_witness :
    getValueFromPath (JValue.obj [("x", JValue.num 1)]) "x" = .ok (JValue.num 1) ∧
    resolveField (JValue.obj [("x", JValue.num 1)]) (JValue.obj []) "x" =
      (if truthy (JValue.num 1) then .ok (JValue.num 1)
       else getValueFromPath (JValue.obj []) "x") :=
  ⟨rfl, resolveField_truthy_first (JValue.obj [("x", JValue.num 1)]) (JValue.obj [])
    "x" (JValue.num 1) rfl⟩

theorem pushTrim_eq (r : ExecutionRecord) (l : List ExecutionRecord) :
    pushTrim r l = (r :: l).take 100 := by
  unfold pushTrim
  split
  · rfl
  next h =>
    simp only [gt_iff_lt, not_lt] at h
    rw [List.take_all_of_le h]

theorem pushTrim_le (r : ExecutionRecord) (l : List ExecutionRecord) :
    (pushTrim r l).length ≤ 100 ∨ pushTrim r l = r :: l := by
  unfold pushTrim
  split
  next h =>
    left
    simp only [List.length_take]
    omega
  next h => right; rfl

theorem pushTrim_head (r : ExecutionRecord) (l : List ExecutionRecord) :
    (pushTrim r l).head? = some r := by
  rw [pushTrim_eq]
  rfl

/-- Unfolding of `executeFlow` on the normal path: flow present and
enabled, conditions pass. -/
theorem executeFlow_run (flow : Flow) (payload : JValue) (ctx : Context)
    (execId now : String) (log : List ExecutionRecord)
    (hen : truthy flow.enabled = true)
    (hcond : evaluateConditions flow.conditions payload ctx.currentSnapshot = .ok true) :
    executeFlow (some flow) payload ctx execId now log =
      ((⟨(if (runActionsGo payload ctx 0 flow.actions).2.length > 0
            then "completed_with_errors" else "completed") == "completed",
         none, some execId,
         some (runActionsGo payload ctx 0 flow.actions).1.length,
         some (runActionsGo payload ctx 0 flow.actions).2⟩ : FlowResult),
       pushTrim
         ⟨execId, flow.id, flow.name, getOwn payload "eventType", now,
          (if (runActionsGo payload ctx 0 flow.actions).2.length > 0
            then "completed_with_errors" else "completed"),
          (runActionsGo payload ctx 0 flow.actions).1,
          (runActionsGo payload ctx 0 flow.actions).2, none, some 0⟩ log) := by
  have hc : (if flow.conditions.length > 0
      then evaluateConditions flow.conditions payload ctx.currentSnapshot
      else Except.ok true) = Except.ok true := by
    split
    · exact hcond
    · rfl
  simp only [executeFlow, hen, Bool.not_true, Bool.false_eq_true, if_false, hc]

theorem runActionsGo_three (payload : JValue) (ctx : Context)
    (a0 a1 a2 : Action) (r0 r2 : JValue) (m : String)
    (h0 : executeAction a0 payload ctx = .ok r0)
    (h1 : executeAction a1 payload ctx = .error m)
    (h2 : executeAction a2 payload ctx = .ok r2) :
    runActionsGo payload ctx 0 [a0, a1, a2] =
      ([(0, a0.type, r0), (2, a2.type, r2)], [errObj 1 m]) := by
  simp only [runActionsGo, h0, h1, h2]

theorem runActionsGo_mem (payload : JValue) (ctx : Context) (start : Nat)
    (actions : List Action) :
    (∀ i a r, actions.get? i = some a → executeAction a payload ctx = .ok r →
      (start + i, a.type, r) ∈ (runActionsGo payload ctx start actions).1) ∧
    (∀ i a m, actions.get? i = some a → executeAction a payload ctx = .error m →
      errObj (start + i) m ∈ (runActionsGo payload ctx start actions).2) := by
  induction actions generalizing start with
  | nil => exact ⟨fun i a r h => by simp at h, fun i a m h => by simp at h⟩
  | cons act rest ih =>
    constructor
    · intro i a r hget hexec
      cases i with
      | zero =>
        simp only [List.get?] at hget
        cases hget
        simp only [runActionsGo, hexec]
        rcases hrest : runActionsGo payload ctx (start + 1) rest with ⟨ps, es⟩
        simp
      | succ n =>
        simp only [List.get?] at hget
        have hmem := (ih (start + 1)).1 n a r hget hexec
        simp only [runActionsGo]
        rcases hrest : runActionsGo payload ctx (start + 1) rest with ⟨ps, es⟩
        rw [hrest] at hmem
        have harith : start + 1 + n = start + (n + 1) := by omega
        rw [harith] at hmem
        split
        · exact List.mem_cons_of_mem _ hmem
        · exact hmem
    · intro i a m hget hexec
      cases i with
      | zero =>
        simp only [List.get?] at hget
        cases hget
        simp only [runActionsGo, hexec]
        rcases hrest : runActionsGo payload ctx (start + 1) rest with ⟨ps, es⟩
        simp
      | succ n =>
        simp only [List.get?] at hget
        have hmem := (ih (start + 1)).2 n a m hget hexec
        simp only [runActionsGo]
        rcases hrest : runActionsGo payload ctx (start + 1) rest with ⟨ps, es⟩
        rw [hrest] at hmem
        have harith : start + 1 + n = start + (n + 1) := by omega
        rw [harith] at hmem
        split
        · exact hmem
        · exact List.mem_cons_of_mem _ hmem

theorem runActionsGo_errors_nil (payload : JValue) (ctx : Context) (actions : List Action) :
    ∀ start, (∀ a ∈ actions, ∃ r, executeAction a payload ctx = .ok r) →
      (runActionsGo payload ctx start actions).2 = [] := by
  induction actions with
  | nil => intro start h; rfl
  | cons act rest ih =>
    intro start h
    obtain ⟨r, hr⟩ := h act (List.mem_cons_self act rest)
    have hrest := ih (start + 1) (fun a ha => h a (List.mem_cons_of_mem act ha))
    simp only [runActionsGo, hr]
    rcases hpair : runActionsGo payload ctx (start + 1) rest with ⟨ps, es⟩
    rw [hpair] at hrest
    exact hrest

/-- Context whose AI-message callback throws (models a throwing
`context.addAiSystemMessage`). -/
def c2ctx : Context := ⟨JValue.obj [], none, some (fun _ => .error "boom")⟩

/-- Enabled flow with three actions whose middle action throws under
`c2ctx`: `show_notification` reaches the throwing callback, the two
`log_message` actions succeed. -/
def c2flow : Flow :=
  ⟨JValue.str "f1", JValue.str "Partial", JValue.bool true, JValue.bool false, [],
   [⟨"log_message", JValue.obj []⟩, ⟨"show_notification", JValue.obj []⟩,
    ⟨"log_message", JValue.obj []⟩]⟩

/-- The result of `log_message` on an empty config. -/
def c2logResult : JValue :=
  mkObj [("success", JValue.bool true), ("message", JValue.undefined), ("level", JValue.str "info")]

/-- C2 counterexample: a 3-action flow whose second action throws.  The
claim says `executeFlow` returns `actionsPerformed === 3`; the code only
pushes non-throwing actions onto `actionsPerformed` and returns 2 (the
thrown action lands in `errors` instead).  Errors has length 1 and the
status is `completed_with_errors` as claimed, and the third action still
ran, but the returned count is 2, not 3. -/
theorem executeFlow_three_actions_counterexample :
    executeAction ⟨"show_notification", JValue.obj []⟩ (JValue.obj []) c2ctx = .error "boom" ∧
    (executeFlow (some c2flow) (JValue.obj []) c2ctx "exec1" "t0" []).1.actionsPerformed =
      some 2 ∧
    ¬ (executeFlow (some c2flow) (JValue.obj []) c2ctx "exec1" "t0" []).1.actionsPerformed =
      some 3 ∧
    ((executeFlow (some c2flow) (JValue.obj []) c2ctx "exec1" "t0" []).1.errors).map
      List.length = some 1 ∧
    ((executeFlow (some c2flow) (JValue.obj []) c2ctx "exec1" "t0" []).2.head?).map
      ExecutionRecord.status = some "completed_with_errors" := by
  refine ⟨rfl, rfl, ?_, rfl, rfl⟩
  intro h
  rw [(rfl : (executeFlow (some c2flow) (JValue.obj []) c2ctx "exec1" "t0" []).1.actionsPerformed =
    some 2)] at h
  exact absurd (Option.some.inj h) (by decide)

/-- C2 amended: for a flow with exactly 3 actions whose middle action
throws while the others succeed (flow enabled, conditions passing),
`executeFlow` returns `actionsPerformed = 2` — only non-throwing actions
are counted — with exactly one error recorded under the failing index 1,
final status `completed_with_errors`, overall success false, and the
action after the failing one still executed (it appears in the record's
`actionsPerformed` at index 2). -/
theorem executeFlow_partial_failure (flow : Flow) (payload : JValue) (ctx : Context)
    (execId now : String) (log : List ExecutionRecord)
    (a0 a1 a2 : Action) (r0 r2 : JValue) (m : String)
    (hacts : flow.actions = [a0, a1, a2])
    (hen : truthy flow.enabled = true)
    (hcond : evaluateConditions flow.conditions payload ctx.currentSnapshot = .ok true)
    (h0 : executeAction a0 payload ctx = .ok r0)
    (h1 : executeAction a1 payload ctx = .error m)
    (h2 : executeAction a2 payload ctx = .ok r2) :
    (executeFlow (some flow) payload ctx execId now log).1.actionsPerformed = some 2 ∧
    ((executeFlow (some flow) payload ctx execId now log).1.errors).map List.length = some 1 ∧
    (executeFlow (some flow) payload ctx execId now log).1.success = false ∧
    ∃ rec, ((executeFlow (some flow) payload ctx execId now log).2).head? = some rec ∧
      rec.status = "completed_with_errors" ∧
      rec.errors = [errObj 1 m] ∧
      rec.actionsPerformed = [(0, a0.type, r0), (2, a2.type, r2)] := by
  have hacts3 : runActionsGo payload ctx 0 flow.actions =
      ([(0, a0.type, r0), (2, a2.type, r2)], [errObj 1 m]) := by
    rw [hacts]
    exact runActionsGo_three payload ctx a0 a1 a2 r0 r2 m h0 h1 h2
  rw [executeFlow_run flow payload ctx execId now log hen hcond, hacts3]
  exact ⟨rfl, rfl, rfl, _, pushTrim_head _ _, rfl, rfl, rfl⟩

theorem executeFlow_partial_failure_witness :
    (executeFlow (some c2flow) (JValue.obj []) c2ctx "exec1" "t0" []).1.actionsPerformed =
      some 2 ∧
    ((executeFlow (some c2flow) (JValue.obj []) c2ctx "exec1" "t0" []).1.errors).map
      List.length = some 1 ∧
    (executeFlow (some c2flow) (JValue.obj []) c2ctx "exec1" "t0" []).1.success = false ∧
    ∃ rec, ((executeFlow (some c2flow) (JValue.obj []) c2ctx "exec1" "t0" []).2).head? =
        some rec ∧
      rec.status = "completed_with_errors" ∧
      rec.errors = [errObj 1 "boom"] ∧
      rec.actionsPerformed =
        [(0, "log_message", c2logResult), (2, "log_message", c2logResult)] :=
  executeFlow_partial_failure c2flow (JValue.obj []) c2ctx "exec1" "t0" []
    ⟨"log_message", JValue.obj []⟩ ⟨"show_notification", JValue.obj []⟩
    ⟨"log_message", JValue.obj []⟩ c2logResult c2logResult "boom"
    rfl rfl rfl rfl rfl rfl

/-- Context with no command dispatcher wired. -/
def c3ctx : Context := ⟨JValue.obj [], none, none⟩

/-- Enabled flow with a single `run_command` action, which returns
`(success false)` when no dispatcher is wired. -/
def c3flow : Flow :=
  ⟨JValue.str "f3", JValue.str "NoDispatcher", JValue.bool true, JValue.bool false, [],
   [⟨"run_command", JValue.obj []⟩]⟩

/-- C3 counterexample: an action that returns `(success false)` (here
`run_command` without a dispatcher) is NOT captured in the Execution
Record's `errors` — `errors` stays empty, the record's status is a clean
`completed` and `executeFlow` reports overall `success = true`, contrary
to the claim that such a failure is recorded and blocks a clean completed
status. -/
theorem failed_action_result_counterexample :
    executeAction ⟨"run_command", JValue.obj []⟩ (JValue.obj []) c3ctx =
      .ok (mkObj [("success", JValue.bool false),
                  ("reason", JValue.str "No runCommand function available")]) ∧
    (executeFlow (some c3flow) (JValue.obj []) c3ctx "exec3" "t0" []).1.success = true ∧
    (executeFlow (some c3flow) (JValue.obj []) c3ctx "exec3" "t0" []).1.errors = some [] ∧
    ((executeFlow (some c3flow) (JValue.obj []) c3ctx "exec3" "t0" []).2.head?).map
      ExecutionRecord.status = some "completed" ∧
    ¬ (executeFlow (some c3flow) (JValue.obj []) c3ctx "exec3" "t0" []).1.success = false := by
  refine ⟨rfl, rfl, rfl, rfl, ?_⟩
  intro h
  rw [(rfl : (executeFlow (some c3flow) (JValue.obj []) c3ctx "exec3" "t0" []).1.success =
    true)] at h
  exact Bool.noConfusion h

/-- C3 amended: only actions that THROW are captured per-index in the
Execution Record's `errors` (and execution continues with the remaining
actions); an action that merely returns `(success false)` is recorded in
`actionsPerformed` with its result object and does not affect the final
status — in particular, when no action throws, `executeFlow` reports
`success = true` with empty errors and a clean `completed` status even if
some action result carried `success: false`. -/
theorem executeFlow_error_capture (flow : Flow) (payload : JValue) (ctx : Context)
    (execId now : String) (log : List ExecutionRecord)
    (hen : truthy flow.enabled = true)
    (hcond : evaluateConditions flow.conditions payload ctx.currentSnapshot = .ok true) :
    (∀ i a m, flow.actions.get? i = some a → executeAction a payload ctx = .error m →
      ∃ rec, ((executeFlow (some flow) payload ctx execId now log).2).head? = some rec ∧
        errObj i m ∈ rec.errors) ∧
    (∀ i a r, flow.actions.get? i = some a → executeAction a payload ctx = .ok r →
      ∃ rec, ((executeFlow (some flow) payload ctx execId now log).2).head? = some rec ∧
        (i, a.type, r) ∈ rec.actionsPerformed) ∧
    ((∀ a ∈ flow.actions, ∃ r, executeAction a payload ctx = .ok r) →
      (executeFlow (some flow) payload ctx execId now log).1.success = true ∧
      (executeFlow (some flow) payload ctx execId now log).1.errors = some [] ∧
      ((executeFlow (some flow) payload ctx execId now log).2.head?).map
        ExecutionRecord.status = some "completed") := by
  rw [executeFlow_run flow payload ctx execId now log hen hcond]
  refine ⟨?_, ?_, ?_⟩
  · intro i a m hget hexec
    have hmem := (runActionsGo_mem payload ctx 0 flow.actions).2 i a m hget hexec
    rw [Nat.zero_add] at hmem
    exact ⟨_, pushTrim_head _ _, hmem⟩
  · intro i a r hget hexec
    have hmem := (runActionsGo_mem payload ctx 0 flow.actions).1 i a r hget hexec
    rw [Nat.zero_add] at hmem
    exact ⟨_, pushTrim_head _ _, hmem⟩
  · intro hall
    have hnil := runActionsGo_errors_nil payload ctx flow.actions 0 hall
    rw [hnil]
    refine ⟨rfl, rfl, ?_⟩
    rw [(pushTrim_head _ _ :
      (pushTrim ⟨execId, flow.id, flow.name, getOwn payload "eventType", now,
        (if ([] : List JValue).length > 0 then "completed_with_errors" else "completed"),
        (runActionsGo payload ctx 0 flow.actions).1, [], none, some 0⟩ log).head? = _)]
    rfl

theorem executeFlow_error_capture_witness :
    ((∀ i a m, c3flow.actions.get? i = some a →
        executeAction a (JValue.obj []) c3ctx = .error m →
      ∃ rec, ((executeFlow (some c3flow) (JValue.obj []) c3ctx "exec3" "t0" []).2).head? =
          some rec ∧ errObj i m ∈ rec.errors) ∧
     (∀ i a r, c3flow.actions.get? i = some a →
        executeAction a (JValue.obj []) c3ctx = .ok r →
      ∃ rec, ((executeFlow (some c3flow) (JValue.obj []) c3ctx "exec3" "t0" []).2).head? =
          some rec ∧ (i, a.type, r) ∈ rec.actionsPerformed) ∧
     ((∀ a ∈ c3flow.actions, ∃ r, executeAction a (JValue.obj []) c3ctx = .ok r) →
      (executeFlow (some c3flow) (JValue.obj []) c3ctx "exec3" "t0" []).1.success = true ∧
      (executeFlow (some c3flow) (JValue.obj []) c3ctx "exec3" "t0" []).1.errors = some [] ∧
      ((executeFlow (some c3flow) (JValue.obj []) c3ctx "exec3" "t0" []).2.head?).map
        ExecutionRecord.status = some "completed")) :=
  executeFlow_error_capture c3flow (JValue.obj []) c3ctx "exec3" "t0" [] rfl rfl

/-- Context with no callbacks for the ring-buffer runs. -/
def c5ctx : Context := ⟨JValue.obj [], none, none⟩

/-- Enabled flow whose single condition never holds on an empty payload:
every execution takes the conditions-not-met skip path. -/
def c5skipFlow : Flow :=
  ⟨JValue.str "f5", JValue.str "Skip", JValue.bool true, JValue.bool false,
   [⟨"x", "equals", JValue.num 1⟩], []⟩

/-- One skipped `executeFlow` call threading the execution log. -/
def c5skipStep (log : List ExecutionRecord) : List ExecutionRecord :=
  (executeFlow (some c5skipFlow) (JValue.obj []) c5ctx "e" "t" log).2

/-- Enabled flow with no conditions and no actions: every execution takes
the normal completion path, which trims the log. -/
def c5okFlow : Flow :=
  ⟨JValue.str "f5b", JValue.str "Ok", JValue.bool true, JValue.bool false, [], []⟩

/-- One completed `executeFlow` call threading the execution log. -/
def c5okStep (log : List ExecutionRecord) : List ExecutionRecord :=
  (executeFlow (some c5okFlow) (JValue.obj []) c5ctx "e" "t" log).2

/-- C5 counterexample: the conditions-not-met early return prepends its
`skipped` record WITHOUT the capacity trim, so 101 executions that create
skip records leave 101 records in the log — the claimed bound of 100 over
all record-creating executions (including condition-mismatch skips) is
violated. -/
theorem executionLog_overflow_counterexample :
    ((c5skipStep [] ).head?).map ExecutionRecord.status = some "skipped" ∧
    (c5skipStep^[101] []).length = 101 ∧
    ¬ (c5skipStep^[101] []).length ≤ 100 := by
  have h : (c5skipStep^[101] []).length = 101 := rfl
  refine ⟨rfl, h, ?_⟩
  rw [h]
  omega

/-- C5 amended: the capacity bound holds on the normal path only.  Every
`executeFlow` call that passes the condition check replaces the log by the
new record consed on and truncated to 100 entries — newest first, oldest
evicted — so the resulting log never exceeds 100 records, and 105 such
executions starting from an empty log leave exactly 100; the
conditions-not-met skip path, however, prepends without eviction (see the
counterexample), so only trimming executions restore the bound. -/
theorem executionLog_capacity (flow : Flow) (payload : JValue) (ctx : Context)
    (execId now : String) (log : List ExecutionRecord)
    (hen : truthy flow.enabled = true)
    (hcond : evaluateConditions flow.conditions payload ctx.currentSnapshot = .ok true) :
    (∃ rec, (executeFlow (some flow) payload ctx execId now log).2 = (rec :: log).take 100 ∧
      (executeFlow (some flow) payload ctx execId now log).2.head? = some rec) ∧
    (executeFlow (some flow) payload ctx execId now log).2.length ≤ 100 ∧
    (c5okStep^[105] []).length = 100 := by
  rw [executeFlow_run flow payload ctx execId now log hen hcond]
  refine ⟨⟨_, pushTrim_eq _ _, pushTrim_head _ _⟩, ?_, rfl⟩
  rw [pushTrim_eq]
  simp only [List.length_take]
  omega

theorem executionLog_capacity_witness :
    (∃ rec, (executeFlow (some c5okFlow) (JValue.obj []) c5ctx "e" "t" []).2 =
        (rec :: []).take 100 ∧
      (executeFlow (some c5okFlow) (JValue.obj []) c5ctx "e" "t" []).2.head? = some rec) ∧
    (executeFlow (some c5okFlow) (JValue.obj []) c5ctx "e" "t" []).2.length ≤ 100 ∧
    (c5okStep^[105] []).length = 100 :=
  executionLog_capacity c5okFlow (JValue.obj []) c5ctx "e" "t" [] rfl rfl

/-- A JS runtime value at heap granularity: a primitive, or a reference to
a heap cell.  Object identity — which the plain `JValue` model erases — is
an address here. -/
inductive HVal where
  | prim (s : String)
  | ref (a : Nat)
deriving DecidableEq

/-- The field list of one heap object. -/
abbrev HObj := List (String × HVal)

/-- A JS object heap: cell `a` is `cells[a]`; allocation appends. -/
structure Heap where
  cells : List HObj
deriving DecidableEq

/-- A pure JSON tree, the output of `JSON.stringify` and the input of
`JSON.parse`. -/
inductive HTree where
  | prim (s : String)
  | node (fields : List (String × HTree))

/-- Read out a field list, given a reader for the component values. -/
def readFieldsAux (f : HVal → Option HTree) : HObj → Option (List (String × HTree))
  | [] => some []
  | (k, v) :: rest =>
    match f v, readFieldsAux f rest with
    | some t, some ts => some ((k, t) :: ts)
    | _, _ => none

/-- `JSON.stringify` of a heap value, fuel-bounded: follows references and
produces the pure tree; `none` when the fuel runs out (a cyclic object,
on which `JSON.stringify` throws) or a reference dangles. -/
def readTree (h : Heap) : Nat → HVal → Option HTree
  | 0 => fun v =>
    match v with
    | .prim s => some (.prim s)
    | .ref _ => none
  | fuel + 1 => fun v =>
    match v with
    | .prim s => some (.prim s)
    | .ref a =>
      match h.cells.get? a with
      | none => none
      | some obj => (readFieldsAux (readTree h fuel) obj).map .node

mutual
/-- `JSON.parse` of a pure tree: allocates a fresh cell for every node and
returns the extended heap and the root value.  All allocated cells are
fresh — nothing already in the heap is touched or referenced. -/
def writeTree : HTree → Heap → Heap × HVal
  | .prim s, h => (h, .prim s)
  | .node fields, h =>
    let p := writeFields fields h
    (⟨p.1.cells ++ [p.2]⟩, .ref p.1.cells.length)

/-- Allocate the values of a field list left to right. -/
def writeFields : List (String × HTree) → Heap → Heap × HObj
  | [], h => (h, [])
  | (k, t) :: rest, h =>
    let p1 := writeTree t h
    let p2 := writeFields rest p1.1
    (p2.1, (k, p1.2) :: p2.2)
end

/-- In-place mutation of one heap cell (a JS property write reaches this
through the owning object's address). -/
def heapSet (h : Heap) (a : Nat) (obj : HObj) : Heap := ⟨h.cells.set a obj⟩

/-- JS property write `obj[k] = v`: replace an existing key in place or
append a new one. -/
def setField (obj : HObj) (k : String) (v : HVal) : HObj :=
  if obj.any (fun kv => kv.1 == k)
  then obj.map (fun kv => if kv.1 == k then (k, v) else kv)
  else obj ++ [(k, v)]

/-- The metadata stamping of `applyChange` at heap level: `clone.id = ...;
clone.label = ...; clone.timestamp = ...` are three property writes on the
clone's root object (a no-op on a primitive root, as in sloppy-mode JS). -/
def stampRoot (h : Heap) (root : HVal) (stepId : Nat) (label now : String) : Heap :=
  match root with
  | .prim _ => h
  | .ref a =>
    match h.cells.get? a with
    | none => h
    | some obj =>
      heapSet h a (setField (setField (setField obj "id" (.prim (toString stepId)))
        "label" (.prim label)) "timestamp" (.prim now))

/-- The `useHistory` state at heap granularity: the heap, the list of
snapshot ROOT references (the history array holds object references in
JS), and the two indices. -/
structure HHistory where
  heap : Heap
  roots : List HVal
  currentIndex : Nat
  commitIndex : Nat

/-- `currentSnapshot = history[currentIndex]` at heap level: the stored
root reference itself — not a copy. -/
def currentSnapshotH (hs : HHistory) : Option HVal :=
  hs.roots.get? hs.currentIndex

/-- Heap-level `applyChange`: deep-clone the current snapshot
(`JSON.parse(JSON.stringify(base))`, allocating a fresh region), run the
mutator (an arbitrary heap transformer receiving the clone's root),
stamp the metadata on the clone's root, truncate the redo branch and
append the clone's root, advancing the cursor. -/
def applyChangeH (mutate : HVal → Heap → Heap) (label now : String) (hs : HHistory) :
    Except String HHistory :=
  match hs.roots.get? hs.currentIndex with
  | none => .error "SyntaxError: JSON.parse on undefined"
  | some base =>
    match readTree hs.heap (hs.heap.cells.length + 1) base with
    | none => .error "TypeError: cyclic object value"
    | some t =>
      let h2 := mutate (writeTree t hs.heap).2 (writeTree t hs.heap).1
      let h3 := stampRoot h2 (writeTree t hs.heap).2 hs.roots.length label now
      .ok { heap := h3,
            roots := hs.roots.take (hs.currentIndex + 1) ++ [(writeTree t hs.heap).2],
            currentIndex := hs.currentIndex + 1,
            commitIndex := hs.commitIndex }

/-- The root value of a snapshot lies inside the address set `S`. -/
def RootIn (v : HVal) (S : Nat → Prop) : Prop := ∀ a, v = .ref a → S a

/-- `S` is closed in heap `h`: cells at addresses in `S` only reference
addresses in `S`. -/
def Closed (h : Heap) (S : Nat → Prop) : Prop :=
  ∀ a, S a → ∀ obj, h.cells.get? a = some obj →
    ∀ k b, (k, HVal.ref b) ∈ obj → S b

/-- Every address of `S` is below `n`. -/
def BoundedS (S : Nat → Prop) (n : Nat) : Prop := ∀ a, S a → a < n

/-- Two address sets share no address. -/
def DisjointS (S T : Nat → Prop) : Prop := ∀ a, S a → T a → False

/-- The stored snapshots occupy pairwise-disjoint closed in-bounds regions
(no shared mutable substructure across history entries), witnessed by the
region assignment `S`. -/
def EntriesIndependent (h : Heap) (roots : List HVal) (S : Nat → Nat → Prop) : Prop :=
  (∀ i v, roots.get? i = some v →
    RootIn v (S i) ∧ Closed h (S i) ∧ BoundedS (S i) h.cells.length) ∧
  (∀ i j, i ≠ j → DisjointS (S i) (S j))

theorem list_get_set_ne {α : Type} (l : List α) (n : Nat) (x : α) (m : Nat)
    (hne : m ≠ n) : (l.set n x).get? m = l.get? m := by
  induction l generalizing n m with
  | nil => simp
  | cons hd tl ih =>
    cases n with
    | zero =>
      cases m with
      | zero => omega
      | succ m2 => simp [List.set]
    | succ n2 =>
      cases m with
      | zero => simp [List.set]
      | succ m2 =>
        simp only [List.set, List.get?]
        exact ih n2 m2 (by omega)

theorem heapSet_get_ne (h : Heap) (a : Nat) (obj : HObj) (b : Nat) (hne : b ≠ a) :
    (heapSet h a obj).cells.get? b = h.cells.get? b :=
  list_get_set_ne h.cells a obj b hne

theorem readFieldsAux_congr (f g : HVal → Option HTree) :
    ∀ obj : HObj, (∀ k v, (k, v) ∈ obj → f v = g v) →
      readFieldsAux f obj = readFieldsAux g obj := by
  intro obj
  induction obj with
  | nil => intro _; rfl
  | cons kv rest ih =>
    intro hobj
    rcases kv with ⟨k, v⟩
    have h1 : f v = g v := hobj k v (List.mem_cons_self _ _)
    have h2 := ih (fun k2 v2 hm => hobj k2 v2 (List.mem_cons_of_mem _ hm))
    simp only [readFieldsAux, h1, h2]

/-- Frame lemma: reading a value whose region is closed and untouched by a
heap change yields the same tree. -/
theorem readTree_frame (h h2 : Heap) (S : Nat → Prop)
    (hcl : Closed h S) (hag : ∀ a, S a → h2.cells.get? a = h.cells.get? a) :
    ∀ (fuel : Nat) (v : HVal), RootIn v S →
      readTree h2 fuel v = readTree h fuel v := by
  intro fuel
  induction fuel with
  | zero => intro v _; cases v <;> rfl
  | succ f ih =>
    intro v hv
    cases v with
    | prim s => rfl
    | ref a =>
      have hS : S a := hv a rfl
      simp only [readTree, hag a hS]
      cases hget : h.cells.get? a with
      | none => rfl
      | some obj =>
        have hrefs : ∀ k b, (k, HVal.ref b) ∈ obj → S b := hcl a hS obj hget
        have hfields : readFieldsAux (readTree h2 f) obj =
            readFieldsAux (readTree h f) obj := by
          apply readFieldsAux_congr
          intro k v2 hm
          cases v2 with
          | prim s2 => cases f <;> rfl
          | ref b => exact ih (.ref b) (fun c hc => by cases hc; exact hrefs k b hm)
        exact congrArg (Option.map HTree.node) hfields

theorem writeTree_node_eq (fields : List (String × HTree)) (h : Heap) :
    writeTree (.node fields) h =
      (⟨(writeFields fields h).1.cells ++ [(writeFields fields h).2]⟩,
       .ref (writeFields fields h).1.cells.length) := by
  simp [writeTree]

theorem writeFields_cons_eq (k : String) (t : HTree) (rest : List (String × HTree))
    (h : Heap) :
    writeFields ((k, t) :: rest) h =
      ((writeFields rest (writeTree t h).1).1,
       (k, (writeTree t h).2) :: (writeFields rest (writeTree t h).1).2) := by
  simp [writeFields]

mutual
/-- Freshness of `JSON.parse` allocation: the heap only grows, existing
cells are untouched, the returned root points into the fresh region, and
every fresh cell references only the fresh region. -/
theorem writeTree_spec : ∀ (t : HTree) (h : Heap),
    h.cells.length ≤ (writeTree t h).1.cells.length ∧
    (∀ a, a < h.cells.length → (writeTree t h).1.cells.get? a = h.cells.get? a) ∧
    (∀ a, (writeTree t h).2 = HVal.ref a →
      h.cells.length ≤ a ∧ a < (writeTree t h).1.cells.length) ∧
    (∀ a obj, h.cells.length ≤ a → (writeTree t h).1.cells.get? a = some obj →
      ∀ k b, (k, HVal.ref b) ∈ obj →
        h.cells.length ≤ b ∧ b < (writeTree t h).1.cells.length)
  | .prim s, h => by
    refine ⟨le_refl _, fun a _ => rfl, ?_, ?_⟩
    · intro a ha
      exact absurd ha (by simp [writeTree])
    · intro a obj hge hget k b _
      simp only [writeTree] at hget
      rw [List.get?_eq_none.mpr hge] at hget
      exact absurd hget (by simp)
  | .node fields, h => by
    obtain ⟨hlen, hlow, hrefs, hhigh⟩ := writeFields_spec fields h
    rw [writeTree_node_eq]
    refine ⟨?_, ?_, ?_, ?_⟩
    · simp only [List.length_append, List.length_cons, List.length_nil]
      omega
    · intro a ha
      rw [List.get?_append (by omega)]
      exact hlow a ha
    · intro a ha
      cases ha
      constructor
      · exact hlen
      · simp only [List.length_append, List.length_cons, List.length_nil]
        omega
    · intro a obj hge hget k b hmem
      simp only [List.length_append, List.length_cons, List.length_nil]
      by_cases hlt : a < (writeFields fields h).1.cells.length
      · rw [List.get?_append hlt] at hget
        have := hhigh a obj hge hget k b hmem
        omega
      · by_cases heq : a = (writeFields fields h).1.cells.length
        · subst heq
          rw [List.get?_append_right (le_refl _), Nat.sub_self] at hget
          simp only [List.get?] at hget
          cases hget
          have := hrefs k b hmem
          omega
        · rw [List.get?_eq_none.mpr (by
            simp only [List.length_append, List.length_cons, List.length_nil]
            omega)] at hget
          exact absurd hget (by simp)

theorem writeFields_spec : ∀ (fields : List (String × HTree)) (h : Heap),
    h.cells.length ≤ (writeFields fields h).1.cells.length ∧
    (∀ a, a < h.cells.length → (writeFields fields h).1.cells.get? a = h.cells.get? a) ∧
    (∀ k b, (k, HVal.ref b) ∈ (writeFields fields h).2 →
      h.cells.length ≤ b ∧ b < (writeFields fields h).1.cells.length) ∧
    (∀ a obj, h.cells.length ≤ a → (writeFields fields h).1.cells.get? a = some obj →
      ∀ k b, (k, HVal.ref b) ∈ obj →
        h.cells.length ≤ b ∧ b < (writeFields fields h).1.cells.length)
  | [], h => by
    refine ⟨le_refl _, fun a _ => rfl, ?_, ?_⟩
    · intro k b hmem
      exact absurd hmem (by simp [writeFields])
    · intro a obj hge hget k b _
      simp only [writeFields] at hget
      rw [List.get?_eq_none.mpr hge] at hget
      exact absurd hget (by simp)
  | (k0, t) :: rest, h => by
    obtain ⟨hlen1, hlow1, hroot1, hhigh1⟩ := writeTree_spec t h
    obtain ⟨hlen2, hlow2, hrefs2, hhigh2⟩ := writeFields_spec rest (writeTree t h).1
    rw [writeFields_cons_eq]
    dsimp only
    refine ⟨le_trans hlen1 hlen2, ?_, ?_, ?_⟩
    · intro a ha
      rw [hlow2 a (by omega), hlow1 a ha]
    · intro k b hmem
      rcases List.mem_cons.mp hmem with hhd | htl
      · have hb : (writeTree t h).2 = HVal.ref b :=
          (congrArg Prod.snd hhd).symm
        have h1 := hroot1 b hb
        exact ⟨by omega, by omega⟩
      · have h1 := hrefs2 k b htl
        exact ⟨by omega, h1.2⟩
    · intro a obj hge hget k b hmem
      by_cases hlt : a < (writeTree t h).1.cells.length
      · rw [hlow2 a hlt] at hget
        have h1 := hhigh1 a obj hge hget k b hmem
        exact ⟨h1.1, by omega⟩
      · have h1 := hhigh2 a obj (by omega) hget k b hmem
        exact ⟨by omega, h1.2⟩
end

theorem list_get_set_eq {α : Type} (l : List α) (n : Nat) (x : α) (hlt : n < l.length) :
    (l.set n x).get? n = some x := by
  induction l generalizing n with
  | nil => simp at hlt
  | cons hd tl ih =>
    cases n with
    | zero => rfl
    | succ n2 =>
      simp only [List.set, List.get?]
      exact ih n2 (by simpa using hlt)

theorem setField_ref_mem (obj : HObj) (key s k : String) (b : Nat)
    (h : (k, HVal.ref b) ∈ setField obj key (.prim s)) : (k, HVal.ref b) ∈ obj := by
  unfold setField at h
  split at h
  · obtain ⟨kv, hkv, heq⟩ := List.mem_map.mp h
    by_cases hk : (kv.1 == key) = true
    · rw [if_pos hk] at heq
      have : HVal.prim s = HVal.ref b := congrArg Prod.snd heq
      exact absurd this (by simp)
    · rw [if_neg hk] at heq
      rw [← heq]
      exact hkv
  · rcases List.mem_append.mp h with h1 | h1
    · exact h1
    · simp only [List.mem_singleton] at h1
      have : HVal.ref b = HVal.prim s := congrArg Prod.snd h1
      exact absurd this (by simp)

theorem stampRoot_length (h : Heap) (root : HVal) (stepId : Nat) (label now : String) :
    (stampRoot h root stepId label now).cells.length = h.cells.length := by
  unfold stampRoot
  split
  · rfl
  · split
    · rfl
    · simp [heapSet, List.length_set]

theorem stampRoot_get_ne (h : Heap) (root : HVal) (stepId : Nat) (label now : String)
    (b : Nat) (hne : ∀ a, root = HVal.ref a → b ≠ a) :
    (stampRoot h root stepId label now).cells.get? b = h.cells.get? b := by
  unfold stampRoot
  split
  · rfl
  next a =>
    split
    · rfl
    · exact heapSet_get_ne h a _ b (hne a rfl)

theorem stampRoot_refs (h : Heap) (root : HVal) (stepId : Nat) (label now : String)
    (a : Nat) (obj2 : HObj)
    (hget : (stampRoot h root stepId label now).cells.get? a = some obj2)
    (k : String) (b : Nat) (hmem : (k, HVal.ref b) ∈ obj2) :
    ∃ obj, h.cells.get? a = some obj ∧ (k, HVal.ref b) ∈ obj := by
  unfold stampRoot at hget
  split at hget
  · exact ⟨obj2, hget, hmem⟩
  next a0 =>
    split at hget
    · exact ⟨obj2, hget, hmem⟩
    next obj0 hget0 =>
      by_cases hab : a = a0
      · subst hab
        have hlt : a < h.cells.length := by
          obtain ⟨hl, _⟩ := List.get?_eq_some.mp hget0
          exact hl
        rw [show (heapSet h a (setField (setField (setField obj0 "id"
            (.prim (toString stepId))) "label" (.prim label)) "timestamp"
            (.prim now))).cells.get? a = some (setField (setField (setField obj0 "id"
            (.prim (toString stepId))) "label" (.prim label)) "timestamp"
            (.prim now)) from list_get_set_eq h.cells a _ hlt] at hget
        cases hget
        exact ⟨obj0, hget0,
          setField_ref_mem _ _ _ _ _ (setField_ref_mem _ _ _ _ _
            (setField_ref_mem _ _ _ _ _ hmem))⟩
      · rw [heapSet_get_ne h a0 _ a hab] at hget
        exact ⟨obj2, hget, hmem⟩

theorem Closed_transfer (h h2 : Heap) (S : Nat → Prop) (n : Nat)
    (hcl : Closed h S) (hb : BoundedS S n)
    (hag : ∀ a, a < n → h2.cells.get? a = h.cells.get? a) : Closed h2 S := by
  intro a hS obj hget k b hmem
  rw [hag a (hb a hS)] at hget
  exact hcl a hS obj hget k b hmem

theorem list_get_take {α : Type} (l : List α) (n m : Nat) (h : m < n) :
    (l.take n).get? m = l.get? m := by
  induction l generalizing n m with
  | nil => simp
  | cons hd tl ih =>
    cases n with
    | zero => omega
    | succ n2 =>
      cases m with
      | zero => rfl
      | succ m2 =>
        simp only [List.take, List.get?]
        exact ih n2 m2 (by omega)

/-- The heap produced by the deep clone of `applyChange`. -/
def cloneHeap (hs : HHistory) (t : HTree) : Heap := (writeTree t hs.heap).1

/-- The root reference of the freshly allocated clone. -/
def cloneRoot (hs : HHistory) (t : HTree) : HVal := (writeTree t hs.heap).2

/-- C8 amended: stored snapshots are structurally independent as long as
each mutator keeps to its own clone.  `currentSnapshot` is the stored root
reference itself (see `currentSnapshotH` and the counterexample), so
mutating it mutates the snapshot at `currentIndex` — but it cannot affect
any OTHER history entry (first conjunct), and a (confined) `applyChange`
appends a snapshot occupying a fresh region disjoint from every existing
entry, preserving pairwise independence (second conjunct).  The three
`hmut*` hypotheses say the mutator has exclusive write access to the copy:
it only changes or allocates cells at addresses at or above the old heap
length, never shrinks the heap, and never plants references from the
fresh region back into older cells or out of bounds. -/
theorem snapshot_isolation (hs : HHistory) (S : Nat → Nat → Prop)
    (mutate : HVal → Heap → Heap) (label now : String) (base : HVal) (t : HTree)
    (hbase : hs.roots.get? hs.currentIndex = some base)
    (hread : readTree hs.heap (hs.heap.cells.length + 1) base = some t)
    (hind : EntriesIndependent hs.heap hs.roots S)
    (hcur : hs.currentIndex < hs.roots.length)
    (hmutLow : ∀ a, a < hs.heap.cells.length →
      (mutate (cloneRoot hs t) (cloneHeap hs t)).cells.get? a =
        (cloneHeap hs t).cells.get? a)
    (hmutLen : (cloneHeap hs t).cells.length ≤
      (mutate (cloneRoot hs t) (cloneHeap hs t)).cells.length)
    (hmutHigh : ∀ a obj, hs.heap.cells.length ≤ a →
      (mutate (cloneRoot hs t) (cloneHeap hs t)).cells.get? a = some obj →
      ∀ k b, (k, HVal.ref b) ∈ obj → hs.heap.cells.length ≤ b ∧
        b < (mutate (cloneRoot hs t) (cloneHeap hs t)).cells.length) :
    (∀ i j a obj fuel vj, i ≠ j → S i a → hs.roots.get? j = some vj →
      readTree (heapSet hs.heap a obj) fuel vj = readTree hs.heap fuel vj) ∧
    ∃ hs2, applyChangeH mutate label now hs = .ok hs2 ∧
      ∃ S2, EntriesIndependent hs2.heap hs2.roots S2 ∧
        hs2.roots.get? (hs.currentIndex + 1) = some (cloneRoot hs t) ∧
        (∀ a, S2 (hs.currentIndex + 1) a → hs.heap.cells.length ≤ a) ∧
        (∀ i, i ≤ hs.currentIndex → S2 i = S i) := by
  obtain ⟨hent, hdisj⟩ := hind
  obtain ⟨hlen1, hlow1, hroot1, hhigh1⟩ := writeTree_spec t hs.heap
  have hceqH : (cloneHeap hs t).cells.length = (writeTree t hs.heap).1.cells.length := rfl
  constructor
  · intro i j a obj fuel vj hij hSa hvj
    obtain ⟨hrootj, hclj, hbj⟩ := hent j vj hvj
    exact readTree_frame hs.heap (heapSet hs.heap a obj) (S j) hclj
      (fun b hSb => heapSet_get_ne hs.heap a obj b
        (fun hba => hdisj i j hij a hSa (hba ▸ hSb)))
      fuel vj hrootj
  · have happ : applyChangeH mutate label now hs = .ok
        { heap := stampRoot (mutate (cloneRoot hs t) (cloneHeap hs t))
            (cloneRoot hs t) hs.roots.length label now,
          roots := hs.roots.take (hs.currentIndex + 1) ++ [cloneRoot hs t],
          currentIndex := hs.currentIndex + 1,
          commitIndex := hs.commitIndex } := by
      simp only [applyChangeH, hbase, hread, cloneRoot, cloneHeap]
    refine ⟨_, happ, ?_⟩
    -- abbreviations for the three heaps
    have hlow2 : ∀ a, a < hs.heap.cells.length →
        (mutate (cloneRoot hs t) (cloneHeap hs t)).cells.get? a =
          hs.heap.cells.get? a := by
      intro a ha
      rw [hmutLow a ha]
      exact hlow1 a ha
    have hlen12 : hs.heap.cells.length ≤
        (mutate (cloneRoot hs t) (cloneHeap hs t)).cells.length :=
      le_trans hlen1 hmutLen
    have hlen3 := stampRoot_length (mutate (cloneRoot hs t) (cloneHeap hs t))
      (cloneRoot hs t) hs.roots.length label now
    have hrootFresh : ∀ a0, cloneRoot hs t = HVal.ref a0 →
        hs.heap.cells.length ≤ a0 ∧
        a0 < (stampRoot (mutate (cloneRoot hs t) (cloneHeap hs t))
          (cloneRoot hs t) hs.roots.length label now).cells.length := by
      intro a0 hr
      obtain ⟨hge, hlt⟩ := hroot1 a0 hr
      refine ⟨hge, ?_⟩
      rw [hlen3]
      omega
    have hlow3 : ∀ a, a < hs.heap.cells.length →
        (stampRoot (mutate (cloneRoot hs t) (cloneHeap hs t))
          (cloneRoot hs t) hs.roots.length label now).cells.get? a =
          hs.heap.cells.get? a := by
      intro a ha
      rw [stampRoot_get_ne _ _ _ _ _ a
        (fun a0 hr => by have := hroot1 a0 hr; omega)]
      exact hlow2 a ha
    have hhigh3 : ∀ a obj, hs.heap.cells.length ≤ a →
        (stampRoot (mutate (cloneRoot hs t) (cloneHeap hs t))
          (cloneRoot hs t) hs.roots.length label now).cells.get? a = some obj →
        ∀ k b, (k, HVal.ref b) ∈ obj → hs.heap.cells.length ≤ b ∧
          b < (stampRoot (mutate (cloneRoot hs t) (cloneHeap hs t))
            (cloneRoot hs t) hs.roots.length label now).cells.length := by
      intro a obj hge hget k b hmem
      obtain ⟨obj0, hget0, hmem0⟩ := stampRoot_refs _ _ _ _ _ a obj hget k b hmem
      obtain ⟨hb1, hb2⟩ := hmutHigh a obj0 hge hget0 k b hmem0
      refine ⟨hb1, ?_⟩
      rw [hlen3]
      exact hb2
    have htklen : (hs.roots.take (hs.currentIndex + 1)).length =
        hs.currentIndex + 1 := by
      rw [List.length_take]
      omega
    have hget2 : ∀ i, i ≤ hs.currentIndex →
        (hs.roots.take (hs.currentIndex + 1) ++ [cloneRoot hs t]).get? i =
          hs.roots.get? i := by
      intro i hi
      rw [List.get?_append (by omega), list_get_take _ _ _ (by omega)]
    have hgetNew : (hs.roots.take (hs.currentIndex + 1) ++ [cloneRoot hs t]).get?
        (hs.currentIndex + 1) = some (cloneRoot hs t) := by
      rw [List.get?_append_right (by omega), htklen]
      simp
    refine ⟨fun i => if i ≤ hs.currentIndex then S i else
        (fun a => i = hs.currentIndex + 1 ∧ hs.heap.cells.length ≤ a ∧
          a < (stampRoot (mutate (cloneRoot hs t) (cloneHeap hs t))
            (cloneRoot hs t) hs.roots.length label now).cells.length),
      ⟨?_, ?_⟩, hgetNew, ?_, ?_⟩
    · intro i v hv
      dsimp only
      by_cases hi : i ≤ hs.currentIndex
      · rw [hget2 i hi] at hv
        obtain ⟨hrt, hcl, hbd⟩ := hent i v hv
        rw [if_pos hi]
        refine ⟨hrt, ?_, ?_⟩
        · exact Closed_transfer hs.heap _ (S i) hs.heap.cells.length hcl hbd hlow3
        · intro a hSa
          have := hbd a hSa
          rw [hlen3]
          omega
      · have hilen : i < hs.currentIndex + 2 := by
          by_contra hge
          rw [List.get?_eq_none.mpr (by
            rw [List.length_append, htklen]
            simp only [List.length_cons, List.length_nil]
            omega)] at hv
          exact absurd hv (by simp)
        have hieq : i = hs.currentIndex + 1 := by omega
        subst hieq
        rw [hgetNew] at hv
        cases hv
        rw [if_neg hi]
        refine ⟨?_, ?_, ?_⟩
        · intro a0 hr
          obtain ⟨hge, hlt⟩ := hrootFresh a0 hr
          exact ⟨rfl, hge, hlt⟩
        · intro a hSa obj hget k b hmem
          obtain ⟨_, ha1, _⟩ := hSa
          obtain ⟨hb1, hb2⟩ := hhigh3 a obj ha1 hget k b hmem
          exact ⟨rfl, hb1, hb2⟩
        · intro a hSa
          exact hSa.2.2
    · intro i j hij a hSi hSj
      by_cases hi : i ≤ hs.currentIndex <;> by_cases hj : j ≤ hs.currentIndex
      · rw [if_pos hi] at hSi
        rw [if_pos hj] at hSj
        exact hdisj i j hij a hSi hSj
      · rw [if_pos hi] at hSi
        rw [if_neg hj] at hSj
        have hvi : ∃ vi, hs.roots.get? i = some vi := by
          have hilt : i < hs.roots.length := by omega
          exact ⟨hs.roots.get ⟨i, hilt⟩, List.get?_eq_get hilt⟩
        obtain ⟨vi, hvi⟩ := hvi
        obtain ⟨_, _, hbd⟩ := hent i vi hvi
        have h1 := hbd a hSi
        have h2 := hSj.2.1
        omega
      · rw [if_neg hi] at hSi
        rw [if_pos hj] at hSj
        have hvj : ∃ vj, hs.roots.get? j = some vj := by
          have hjlt : j < hs.roots.length := by omega
          exact ⟨hs.roots.get ⟨j, hjlt⟩, List.get?_eq_get hjlt⟩
        obtain ⟨vj, hvj⟩ := hvj
        obtain ⟨_, _, hbd⟩ := hent j vj hvj
        have h1 := hbd a hSj
        have h2 := hSi.2.1
        omega
      · rw [if_neg hi] at hSi
        rw [if_neg hj] at hSj
        exact hij (hSi.1.trans hSj.1.symm)
    · intro a hSa
      rw [if_neg (by omega)] at hSa
      exact hSa.2.1
    · intro i hi
      dsimp only
      rw [if_pos hi]

/-- A one-entry heap history: cell 0 is the snapshot object, the history
array holds the reference to it, both indices 0. -/
def c8hist : HHistory :=
  ⟨⟨[[("x", HVal.prim "1")]]⟩, [HVal.ref 0], 0, 0⟩

/-- C8 counterexample: `currentSnapshot = history[currentIndex]` is the
stored reference itself, not a copy.  Writing through it (a JS property
assignment on the returned object) changes the stored snapshot's readout
from `x = 1` to `x = 2` — mutating the object returned as
`currentSnapshot` DOES affect a stored snapshot, contrary to the claim. -/
theorem currentSnapshot_alias_counterexample :
    currentSnapshotH c8hist = some (HVal.ref 0) ∧
    readTree c8hist.heap 2 (HVal.ref 0) = some (.node [("x", .prim "1")]) ∧
    readTree (heapSet c8hist.heap 0 [("x", HVal.prim "2")]) 2 (HVal.ref 0) =
      some (.node [("x", .prim "2")]) ∧
    ¬ readTree (heapSet c8hist.heap 0 [("x", HVal.prim "2")]) 2 (HVal.ref 0) =
        readTree c8hist.heap 2 (HVal.ref 0) := by
  refine ⟨rfl, rfl, rfl, ?_⟩
  intro h
  rw [(rfl : readTree (heapSet c8hist.heap 0 [("x", HVal.prim "2")]) 2 (HVal.ref 0) =
        some (HTree.node [("x", HTree.prim "2")])),
      (rfl : readTree c8hist.heap 2 (HVal.ref 0) =
        some (HTree.node [("x", HTree.prim "1")]))] at h
  have h1 := Option.some.inj h
  have h2 : ([("x", HTree.prim "2")] : List (String × HTree)) =
      [("x", HTree.prim "1")] := by injection h1
  have h3 : (("x", HTree.prim "2") : String × HTree) = ("x", HTree.prim "1") :=
    (List.cons.injEq _ _ _ _ ▸ h2).1
  have h4 : HTree.prim "2" = HTree.prim "1" := congrArg Prod.snd h3
  have h5 : "2" = "1" := by injection h4
  exact absurd h5 (by decide)

theorem snapshot_isolation_witness :
    (∀ i j a obj fuel vj, i ≠ j → (i = 0 ∧ a = 0) → c8hist.roots.get? j = some vj →
      readTree (heapSet c8hist.heap a obj) fuel vj = readTree c8hist.heap fuel vj) ∧
    ∃ hs2, applyChangeH (fun _ h => h) "L" "T" c8hist = .ok hs2 ∧
      ∃ S2, EntriesIndependent hs2.heap hs2.roots S2 ∧
        hs2.roots.get? 1 = some (cloneRoot c8hist (.node [("x", .prim "1")])) ∧
        (∀ a, S2 1 a → c8hist.heap.cells.length ≤ a) ∧
        (∀ i, i ≤ 0 → S2 i = (fun a => i = 0 ∧ a = 0)) := by
  have hind : EntriesIndependent c8hist.heap c8hist.roots
      (fun i a => i = 0 ∧ a = 0) := by
    constructor
    · intro i v hv
      cases i with
      | zero =>
        cases hv
        refine ⟨?_, ?_, ?_⟩
        · intro a ha
          cases ha
          exact ⟨rfl, rfl⟩
        · intro a hSa obj hget k b hmem
          obtain ⟨_, ha⟩ := hSa
          subst ha
          rw [(rfl : c8hist.heap.cells.get? 0 = some [("x", HVal.prim "1")])] at hget
          cases hget
          simp at hmem
        · intro a hSa
          rw [hSa.2]
          decide
      | succ n =>
        have hnone : c8hist.roots.get? (n + 1) = (none : Option HVal) := by
          cases n <;> rfl
        rw [hnone] at hv
        exact absurd hv (by simp)
    · intro i j hij a hSi hSj
      exact hij (hSi.1.trans hSj.1.symm)
  exact snapshot_isolation c8hist (fun i a => i = 0 ∧ a = 0) (fun _ h => h) "L" "T"
    (HVal.ref 0) (.node [("x", .prim "1")]) rfl rfl hind (by decide)
    (fun a _ => rfl) (le_refl _)
    (fun a obj hge hget k b hmem =>
      (writeTree_spec (HTree.node [("x", HTree.prim "1")]) c8hist.heap).2.2.2
        a obj hge hget k b hmem)

end Tasklytics
